import Mathlib

/-!
Verification of the cauchemar compiler and virtual machine (src/main.rs).

The development shallowly embeds the core of the program:

* `CauchemarAST` — the structured command model handed over by the parser.
* `compile_routine` — the single-pass compiler threading one instruction
  buffer through the recursion and backpatching jump targets, mirroring
  `compile_routine` in the source.
* `compileProgram` / `compile_cauchemar_program` — the routine table:
  every user routine compiled (with a trailing `Return`), then the fixed
  native set inserted afterwards, in source order (last write wins).
* `step` / `run_vm` — the fuel-indexed virtual machine loop: frames are
  popped, looked up, pre-advanced, and dispatched exactly as in the source.
* `interpCmds` — a naive direct recursive interpreter of the AST, used as
  the specification side for the compiler-correctness claim.

Machine integers of the source (`i32`) are modelled as `Int`; the source's
informal semantics leaves overflow behaviour unspecified, and none of the
verified claims depends on it.  Division uses `Int.tdiv`, which truncates
toward zero exactly as Rust's `/` on `i32` does.  Output (`println!`) is
modelled as a list of printed lines carried in the machine state.
-/

/-- Runtime values (`CauchemarVMValue` in the source): 32-bit signed
integers are modelled as `Int`, strings are immutable and value-compared. -/
inductive CauchemarVMValue where
  | number (n : Int)
  | bool (b : Bool)
  | string (s : String)
  deriving DecidableEq, Repr

/-- AST commands (`CauchemarAST` in the source). -/
inductive CauchemarAST where
  | number (n : Int)
  | bool (b : Bool)
  | string (s : String)
  | identifier (s : String)
  | if_ (then_ otherwise : List CauchemarAST)
  | while_ (body : List CauchemarAST)
  | add
  | sub
  | mul
  | div
  deriving Repr

/-- Bytecode instructions (`CauchemarVMInstruction` in the source). -/
inductive CauchemarVMInstruction where
  | push (v : CauchemarVMValue)
  | call (name : String)
  | jump (target : Nat)
  | jumpIfFalse (target : Nat)
  | add
  | sub
  | mul
  | div
  | ret
  | nop
  deriving DecidableEq, Repr

/-- The fixed native routines, one tag per `routines.insert(...)` call in
`compile_cauchemar_program`.  The source stores function pointers; the tag
is interpreted by `execNative` below. -/
inductive NativeOp where
  | print
  | drop
  | dup
  | swap
  | rot
  | over
  | equals
  | notOp
  | orOp
  | andOp
  | greaterThan
  | greaterEqual
  | lessThan
  | lessEqual
  | assert
  deriving DecidableEq, Repr

/-- A routine of the merged table: a compiled user instruction list or a
native built-in (`CauchemarVMRoutine` in the source). -/
inductive CauchemarVMRoutine where
  | native (op : NativeOp)
  | user (instructions : List CauchemarVMInstruction)
  deriving DecidableEq, Repr

/-- The fatal faults.  The first six correspond to the `panic!` calls of the
source; `frameIndexOOB` models the implicit panic of the out-of-bounds
index `instructions[ip]`, and `emptyFrameStack` the implicit panic of
`vm.ip.pop().unwrap()` on an empty frame stack. -/
inductive Fault where
  | stackUnderflow
  | typeMismatch
  | divisionByZero
  | assertionFailed
  | unknownRoutine
  | missingEntryRoutine
  | frameIndexOOB
  | emptyFrameStack
  deriving DecidableEq, Repr

/-- How a value prints (`impl fmt::Display for CauchemarVMValue`). -/
def dispVal : CauchemarVMValue → String
  | .number n => toString n
  | .bool true => "TRUE"
  | .bool false => "FALSE"
  | .string s => s

/-- The VM state owned by one run: the frame stack `ip` (top first), the
value stack (top first), and the lines printed so far (stdout). -/
structure VMState where
  ip : List (String × Nat)
  stack : List CauchemarVMValue
  output : List String
  deriving DecidableEq, Repr

/-- The routine table: name to routine, built once by compilation. -/
def RoutineTable : Type := String → Option CauchemarVMRoutine

/-- A program as handed over by the parser: routine name to command list
(the `routines` HashMap of `CauchemarProgram`). -/
def Program : Type := String → Option (List CauchemarAST)

/-- Effect of one native routine on the value stack: the new stack and the
lines it prints, or the fault it panics with.  Each arm transcribes the
corresponding closure in `compile_cauchemar_program`; note that `DROP`
(`vm.stack.pop();`) discards the result of `pop` and never panics. -/
def execNative : NativeOp → List CauchemarVMValue →
    Except Fault (List CauchemarVMValue × List String)
  | .print, [] => .error .stackUnderflow
  | .print, v :: s => .ok (s, [dispVal v])
  | .drop, s => .ok (s.tail, [])
  | .dup, [] => .error .stackUnderflow
  | .dup, v :: s => .ok (v :: v :: s, [])
  | .swap, [] => .error .stackUnderflow
  | .swap, [_] => .error .stackUnderflow
  | .swap, a :: b :: s => .ok (b :: a :: s, [])
  | .rot, [] => .error .stackUnderflow
  | .rot, [_] => .error .stackUnderflow
  | .rot, [_, _] => .error .stackUnderflow
  | .rot, a :: b :: c :: s => .ok (c :: a :: b :: s, [])
  | .over, [] => .error .stackUnderflow
  | .over, [_] => .error .stackUnderflow
  | .over, a :: b :: s => .ok (b :: a :: b :: s, [])
  | .equals, [] => .error .stackUnderflow
  | .equals, [_] => .error .stackUnderflow
  | .equals, a :: b :: s => .ok (.bool (decide (a = b)) :: s, [])
  | .notOp, [] => .error .stackUnderflow
  | .notOp, .bool b :: s => .ok (.bool (!b) :: s, [])
  | .notOp, _ :: _ => .error .typeMismatch
  | .orOp, [] => .error .stackUnderflow
  | .orOp, .bool a :: rest =>
      match rest with
      | [] => .error .stackUnderflow
      | .bool b :: s => .ok (.bool (a || b) :: s, [])
      | _ :: _ => .error .typeMismatch
  | .orOp, _ :: _ => .error .typeMismatch
  | .andOp, [] => .error .stackUnderflow
  | .andOp, .bool a :: rest =>
      match rest with
      | [] => .error .stackUnderflow
      | .bool b :: s => .ok (.bool (a && b) :: s, [])
      | _ :: _ => .error .typeMismatch
  | .andOp, _ :: _ => .error .typeMismatch
  | .greaterThan, s => numberComparison (fun a b => decide (a > b)) s
  | .greaterEqual, s => numberComparison (fun a b => decide (a ≥ b)) s
  | .lessThan, s => numberComparison (fun a b => decide (a < b)) s
  | .lessEqual, s => numberComparison (fun a b => decide (a ≤ b)) s
  | .assert, [] => .error .stackUnderflow
  | .assert, .bool b :: s => if b then .ok (s, []) else .error .assertionFailed
  | .assert, _ :: _ => .error .typeMismatch
where
  /-- `number_comparison` of the source: pop `b` (the right operand, on
  top), pop `a`, push `Bool (f a b)`; non-numbers are a type fault. -/
  numberComparison (f : Int → Int → Bool) :
      List CauchemarVMValue → Except Fault (List CauchemarVMValue × List String)
  | [] => .error .stackUnderflow
  | .number b :: rest =>
      match rest with
      | [] => .error .stackUnderflow
      | .number a :: s => .ok (.bool (f a b) :: s, [])
      | _ :: _ => .error .typeMismatch
  | _ :: _ => .error .typeMismatch

/-- How many values a native pops from the stack. -/
def natArity : NativeOp → Nat
  | .print => 1
  | .drop => 1
  | .dup => 1
  | .swap => 2
  | .rot => 3
  | .over => 2
  | .equals => 2
  | .notOp => 1
  | .orOp => 2
  | .andOp => 2
  | .greaterThan => 2
  | .greaterEqual => 2
  | .lessThan => 2
  | .lessEqual => 2
  | .assert => 1

/-- The recursive compiler (`compile_routine` in the source): threads the
growing instruction buffer `acc` through the command list, emitting
placeholder jumps for `If`/`While` and backpatching them (`List.set`) once
the real positions are known.  Each arm transcribes the matching arm of the
source's `match command`. -/
def compile_routine : List CauchemarVMInstruction → List CauchemarAST →
    List CauchemarVMInstruction
  | acc, [] => acc
  | acc, .number n :: cs =>
      compile_routine (acc ++ [.push (.number n)]) cs
  | acc, .bool b :: cs =>
      compile_routine (acc ++ [.push (.bool b)]) cs
  | acc, .string s :: cs =>
      compile_routine (acc ++ [.push (.string s)]) cs
  | acc, .identifier s :: cs =>
      compile_routine (acc ++ [.call s]) cs
  | acc, .if_ t e :: cs =>
      -- emit a placeholder JumpIfFalse and remember its position
      let falseJumpIndex := acc.length
      let a2 := compile_routine (acc ++ [.jumpIfFalse 0]) t
      -- emit a placeholder Jump and remember its position
      let endJumpIndex := a2.length
      let a4 := compile_routine (a2 ++ [.jump 0]) e
      let a5 := a4 ++ [.nop]
      let endJump := a5.length - 1
      let patched :=
        (a5.set falseJumpIndex (.jumpIfFalse (endJumpIndex + 1))).set
          endJumpIndex (.jump endJump)
      compile_routine patched cs
  | acc, .while_ b :: cs =>
      let startIndex := acc.length
      let a2 := compile_routine acc b
      let falseJumpIndex := a2.length
      let a3 := a2 ++ [.jumpIfFalse 0, .jump startIndex, .nop]
      let falseJump := a3.length - 1
      let patched := a3.set falseJumpIndex (.jumpIfFalse falseJump)
      compile_routine patched cs
  | acc, .add :: cs => compile_routine (acc ++ [.add]) cs
  | acc, .sub :: cs => compile_routine (acc ++ [.sub]) cs
  | acc, .mul :: cs => compile_routine (acc ++ [.mul]) cs
  | acc, .div :: cs => compile_routine (acc ++ [.div]) cs
termination_by _ cs => sizeOf cs

/-- The instructions `compile_routine` emits for `cmds` when the buffer
already holds `i` instructions, with all jump targets resolved.  This is
the specification-level view of the buffer-threading compiler; the lemma
`compile_routine_eq_append` ties the two. -/
def compileAtCmds : Nat → List CauchemarAST → List CauchemarVMInstruction
  | _, [] => []
  | i, .number n :: cs => .push (.number n) :: compileAtCmds (i + 1) cs
  | i, .bool b :: cs => .push (.bool b) :: compileAtCmds (i + 1) cs
  | i, .string s :: cs => .push (.string s) :: compileAtCmds (i + 1) cs
  | i, .identifier s :: cs => .call s :: compileAtCmds (i + 1) cs
  | i, .if_ t e :: cs =>
      let T := compileAtCmds (i + 1) t
      let jp := i + 1 + T.length
      let O := compileAtCmds (jp + 1) e
      let np := jp + 1 + O.length
      .jumpIfFalse (jp + 1) :: (T ++ .jump np :: (O ++ .nop :: compileAtCmds (np + 1) cs))
  | i, .while_ b :: cs =>
      let B := compileAtCmds i b
      B ++ .jumpIfFalse (i + B.length + 2) :: .jump i :: .nop ::
        compileAtCmds (i + B.length + 3) cs
  | i, .add :: cs => .add :: compileAtCmds (i + 1) cs
  | i, .sub :: cs => .sub :: compileAtCmds (i + 1) cs
  | i, .mul :: cs => .mul :: compileAtCmds (i + 1) cs
  | i, .div :: cs => .div :: compileAtCmds (i + 1) cs
termination_by _ cs => sizeOf cs

/-- One compiled user routine: the compiled body with the appended
trailing `Return` (`compiled_routine.push(Return)` in the source). -/
def compiledRoutine (cmds : List CauchemarAST) : List CauchemarVMInstruction :=
  compile_routine [] cmds ++ [.ret]

/-- `HashMap::insert`: the new binding shadows any earlier one. -/
def insertR (tbl : RoutineTable) (name : String) (r : CauchemarVMRoutine) :
    RoutineTable :=
  fun n => if n = name then some r else tbl n

/-- The table after the user-routine loop of `compile_cauchemar_program`:
every routine of the program compiled, under its own name.  The source
iterates the `HashMap` (distinct keys) and inserts each compiled routine;
pointwise that is exactly this mapping. -/
def userTable (p : Program) : RoutineTable :=
  fun n => (p n).map fun cmds => .user (compiledRoutine cmds)

/-- The native `routines.insert` calls of `compile_cauchemar_program`, in
source order (performed after all user routines are inserted). -/
def nativeList : List (String × NativeOp) :=
  [("PRINT", .print), ("DROP", .drop), ("DUP", .dup), ("SWAP", .swap),
   ("ROT", .rot), ("OVER", .over), ("EQUALS", .equals), ("NOT", .notOp),
   ("OR", .orOp), ("AND", .andOp), ("GREATER-THAN", .greaterThan),
   ("GREATER-EQUAL", .greaterEqual), ("LESS-THAN", .lessThan),
   ("LESS-EQUAL", .lessEqual), ("ASSERT", .assert)]

/-- The full routine table built by `compile_cauchemar_program`: user
routines first, then the fixed natives inserted over them. -/
def compileProgram (p : Program) : RoutineTable :=
  nativeList.foldl (fun tbl pr => insertR tbl pr.1 (.native pr.2)) (userTable p)

/-- `compile_cauchemar_program`: the routine table plus the fresh machine
state `CauchemarVM { ip: vec![("PROGRAM", 0)], stack: Vec::new(), .. }`. -/
def compile_cauchemar_program (p : Program) : RoutineTable × VMState :=
  (compileProgram p, ⟨[("PROGRAM", 0)], [], []⟩)

/-- Which native (if any) a name resolves to in the finished table: the
last binding of `nativeList` for that name, i.e. the winner of the insert
chain. -/
def nativeOf (n : String) : Option NativeOp :=
  nativeList.foldl (fun acc pr => if pr.1 = n then some pr.2 else acc) none

/-- Accumulator lemma for the lookup fold: the initial value only matters
when no later binding hits. -/
theorem foldl_upd_acc (n : String) (l : List (String × NativeOp)) :
    ∀ a : Option NativeOp,
      l.foldl (fun acc pr => if pr.1 = n then some pr.2 else acc) a =
        match l.foldl (fun acc pr => if pr.1 = n then some pr.2 else acc) none with
        | some op => some op
        | none => a := by
  induction l with
  | nil => intro a; rfl
  | cons q l ih =>
      intro a
      simp only [List.foldl_cons]
      rw [ih, ih (if q.1 = n then some q.2 else none)]
      by_cases hq : q.1 = n
      · simp only [if_pos hq]
        cases l.foldl (fun acc pr => if pr.1 = n then some pr.2 else acc) none <;> rfl
      · simp only [if_neg hq]
        cases l.foldl (fun acc pr => if pr.1 = n then some pr.2 else acc) none <;> rfl

/-- A lookup through a chain of inserts is decided by the last matching
insert, and falls back to the base table. -/
theorem foldl_insert_lookup (n : String) (l : List (String × NativeOp)) :
    ∀ tbl : RoutineTable,
      (l.foldl (fun t pr => insertR t pr.1 (.native pr.2)) tbl) n =
        match l.foldl (fun acc pr => if pr.1 = n then some pr.2 else acc) none with
        | some op => some (.native op)
        | none => tbl n := by
  induction l with
  | nil => intro tbl; rfl
  | cons q l ih =>
      intro tbl
      simp only [List.foldl_cons]
      rw [ih, foldl_upd_acc n l (if q.1 = n then some q.2 else none)]
      by_cases hq : q.1 = n
      · simp only [if_pos hq]
        cases l.foldl (fun acc pr => if pr.1 = n then some pr.2 else acc) none <;>
          simp [insertR, hq.symm]
      · simp only [if_neg hq]
        cases l.foldl (fun acc pr => if pr.1 = n then some pr.2 else acc) none <;>
          simp [insertR, Ne.symm hq]

/-- What a routine table lookup of the compiled program yields: a native
for every native name, the compiled user routine otherwise. -/
theorem compileProgram_lookup (p : Program) (n : String) :
    compileProgram p n =
      match nativeOf n with
      | some op => some (.native op)
      | none => (p n).map fun cmds =>
          CauchemarVMRoutine.user (compiledRoutine cmds) := by
  rw [compileProgram, foldl_insert_lookup n nativeList (userTable p), nativeOf]
  rfl

/-- A native name always wins the final table lookup (natives are
inserted after every user routine). -/
theorem compileProgram_native (p : Program) (n : String) (op : NativeOp)
    (h : nativeOf n = some op) : compileProgram p n = some (.native op) := by
  rw [compileProgram_lookup, h]

/-- A non-native name resolves to its compiled user routine (or nothing). -/
theorem compileProgram_user (p : Program) (n : String)
    (h : nativeOf n = none) :
    compileProgram p n = (p n).map fun cmds =>
      CauchemarVMRoutine.user (compiledRoutine cmds) := by
  rw [compileProgram_lookup, h]

/-- `binop` of the source: pop the right operand `b` (stack top), pop the
left operand `a`, push `Number (f a b)`.  A non-number pop is the source's
`panic!("Invalid type")`, a missing operand `panic!("Stack underflow")`;
the closure `f` itself may fault (division by zero). -/
def binop (f : Int → Int → Except Fault Int) (stack : List CauchemarVMValue) :
    Except Fault (List CauchemarVMValue) :=
  match stack with
  | [] => .error .stackUnderflow
  | .number b :: rest =>
      match rest with
      | [] => .error .stackUnderflow
      | .number a :: s =>
          match f a b with
          | .ok r => .ok (.number r :: s)
          | .error e => .error e
      | _ :: _ => .error .typeMismatch
  | _ :: _ => .error .typeMismatch

/-- The closures `run_vm` passes to `binop`; `a / b` on `i32` truncates
toward zero and panics on a zero divisor. -/
def addFn (a b : Int) : Except Fault Int := .ok (a + b)

def subFn (a b : Int) : Except Fault Int := .ok (a - b)

def mulFn (a b : Int) : Except Fault Int := .ok (a * b)

def divFn (a b : Int) : Except Fault Int :=
  if b = 0 then .error .divisionByZero else .ok (Int.tdiv a b)

/-- Result of one iteration of the `run_vm` loop. -/
inductive StepRes where
  | cont (s : VMState)
  | halt (s : VMState)
  | fault (e : Fault) (s : VMState)
  deriving DecidableEq, Repr

/-- One iteration of the `run_vm` loop: pop the top frame, look the routine
up, push the frame back pre-advanced (`vm.ip.push((routine_name, ip + 1))`),
then dispatch.  A native's effect runs against the value stack and the
pre-advanced frame is popped again; a user instruction is fetched at `ip`
and interpreted, control-flow instructions replacing the pre-advanced
frame.  A `fault` carries the state at the moment of the panic. -/
def step (tbl : RoutineTable) (s : VMState) : StepRes :=
  match s.ip with
  | [] => .fault .emptyFrameStack s
  | (name, ip) :: rest =>
      match tbl name with
      | none => .fault .unknownRoutine s
      | some (.native op) =>
          -- pre-advanced frame pushed, native effect run, frame popped again
          match execNative op s.stack with
          | .ok (stk, ls) => .cont ⟨rest, stk, s.output ++ ls⟩
          | .error e => .fault e s
      | some (.user instructions) =>
          match instructions[ip]? with
          | none => .fault .frameIndexOOB s
          | some instr =>
              -- the pre-advanced frame (name, ip + 1) is on top of rest
              match instr with
              | .push v => .cont ⟨(name, ip + 1) :: rest, v :: s.stack, s.output⟩
              | .add =>
                  match binop addFn s.stack with
                  | .ok stk => .cont ⟨(name, ip + 1) :: rest, stk, s.output⟩
                  | .error e => .fault e s
              | .sub =>
                  match binop subFn s.stack with
                  | .ok stk => .cont ⟨(name, ip + 1) :: rest, stk, s.output⟩
                  | .error e => .fault e s
              | .mul =>
                  match binop mulFn s.stack with
                  | .ok stk => .cont ⟨(name, ip + 1) :: rest, stk, s.output⟩
                  | .error e => .fault e s
              | .div =>
                  match binop divFn s.stack with
                  | .ok stk => .cont ⟨(name, ip + 1) :: rest, stk, s.output⟩
                  | .error e => .fault e s
              | .jump t =>
                  -- pop the pre-advanced frame, push (name, target)
                  .cont ⟨(name, t) :: rest, s.stack, s.output⟩
              | .jumpIfFalse t =>
                  match s.stack with
                  | .bool false :: stk => .cont ⟨(name, t) :: rest, stk, s.output⟩
                  | .bool true :: stk => .cont ⟨(name, ip + 1) :: rest, stk, s.output⟩
                  | _ :: _ => .fault .typeMismatch s
                  | [] => .fault .stackUnderflow s
              | .call callee =>
                  -- new frame on top, the caller's pre-advanced frame beneath
                  .cont ⟨(callee, 0) :: (name, ip + 1) :: rest, s.stack, s.output⟩
              | .ret =>
                  match rest with
                  | [] => .halt ⟨[], s.stack, s.output⟩
                  | _ :: _ => .cont ⟨rest, s.stack, s.output⟩
              | .nop => .cont ⟨(name, ip + 1) :: rest, s.stack, s.output⟩

/-- Result of a bounded run of the VM loop. -/
inductive RunRes where
  | done (s : VMState)
  | fault (e : Fault) (s : VMState)
  | timeout (s : VMState)
  deriving DecidableEq, Repr

/-- `run_vm`, fuel-indexed: iterate `step` until the `Return`-with-empty-
frame-stack `break` (`done`), a panic (`fault`), or the fuel runs out. -/
def run_vm (tbl : RoutineTable) : Nat → VMState → RunRes
  | 0, s => .timeout s
  | n + 1, s =>
      match step tbl s with
      | .cont s' => run_vm tbl n s'
      | .halt s' => .done s'
      | .fault e s' => .fault e s'

/-- One `cont` step of the VM. -/
def StepsTo (tbl : RoutineTable) (s s' : VMState) : Prop :=
  step tbl s = .cont s'

/-- Zero or more `cont` steps. -/
def Reach (tbl : RoutineTable) : VMState → VMState → Prop :=
  Relation.ReflTransGen (StepsTo tbl)

/-- Exactly `n` `cont` steps. -/
def ReachN (tbl : RoutineTable) : Nat → VMState → VMState → Prop
  | 0, s, s' => s' = s
  | n + 1, s, s' => ∃ s1, step tbl s = .cont s1 ∧ ReachN tbl n s1 s'

theorem reach_run_done (tbl : RoutineTable) {s s' s'' : VMState}
    (h : Reach tbl s s') (hh : step tbl s' = .halt s'') :
    ∃ n, run_vm tbl n s = .done s'' := by
  induction h using Relation.ReflTransGen.head_induction_on with
  | refl => exact ⟨1, by simp [run_vm, hh]⟩
  | head hstep _ ih =>
      obtain ⟨n, hn⟩ := ih
      have hstep' : step tbl _ = .cont _ := hstep
      exact ⟨n + 1, by simp [run_vm, hstep', hn]⟩

theorem reach_run_fault (tbl : RoutineTable) {s s' : VMState} {e : Fault}
    (h : Reach tbl s s') (hf : step tbl s' = .fault e s') :
    ∃ n, run_vm tbl n s = .fault e s' := by
  induction h using Relation.ReflTransGen.head_induction_on with
  | refl => exact ⟨1, by simp [run_vm, hf]⟩
  | head hstep _ ih =>
      obtain ⟨n, hn⟩ := ih
      have hstep' : step tbl _ = .cont _ := hstep
      exact ⟨n + 1, by simp [run_vm, hstep', hn]⟩

theorem reachN_of_reach (tbl : RoutineTable) {s s' : VMState}
    (h : Reach tbl s s') : ∃ n, ReachN tbl n s s' := by
  induction h using Relation.ReflTransGen.head_induction_on with
  | refl => exact ⟨0, rfl⟩
  | head hstep _ ih =>
      obtain ⟨n, hn⟩ := ih
      exact ⟨n + 1, _, hstep, hn⟩

theorem reachN_trans (tbl : RoutineTable) : ∀ {m n : Nat} {s s' s'' : VMState},
    ReachN tbl m s s' → ReachN tbl n s' s'' → ReachN tbl (m + n) s s'' := by
  intro m
  induction m with
  | zero => intro n s s' s'' h1 h2; cases h1; simpa using h2
  | succ m ih =>
      intro n s s' s'' h1 h2
      obtain ⟨s1, hs, h1⟩ := h1
      have harith : m + 1 + n = m + n + 1 := by omega
      rw [harith]
      exact ⟨s1, hs, ih h1 h2⟩

theorem reachN_step (tbl : RoutineTable) {s s' : VMState}
    (h : step tbl s = .cont s') : ReachN tbl 1 s s' := ⟨s', h, rfl⟩


theorem reach_head {tbl : RoutineTable} {s0 s1 s2 : VMState}
    (h : step tbl s0 = .cont s1) (h' : Reach tbl s1 s2) : Reach tbl s0 s2 :=
  Relation.ReflTransGen.head h h'

theorem reach_tail {tbl : RoutineTable} {s0 s1 s2 : VMState}
    (h : Reach tbl s0 s1) (h' : step tbl s1 = .cont s2) : Reach tbl s0 s2 :=
  Relation.ReflTransGen.tail h h'

theorem reach_one {tbl : RoutineTable} {s0 s1 : VMState}
    (h : step tbl s0 = .cont s1) : Reach tbl s0 s1 :=
  Relation.ReflTransGen.single h

/-- While a `cont` chain of length `n` runs, any smaller fuel times out. -/
theorem reachN_timeout (tbl : RoutineTable) : ∀ {n : Nat} {s s' : VMState},
    ReachN tbl n s s' → ∀ m ≤ n, ∃ s'', run_vm tbl m s = .timeout s'' := by
  intro n
  induction n with
  | zero =>
      intro s s' _ m hm
      interval_cases m
      exact ⟨s, rfl⟩
  | succ n ih =>
      intro s s' h m hm
      obtain ⟨s1, hs, h⟩ := h
      match m with
      | 0 => exact ⟨s, rfl⟩
      | m + 1 =>
          obtain ⟨s'', hr⟩ := ih h m (Nat.le_of_succ_le_succ hm)
          exact ⟨s'', by simp [run_vm, hs, hr]⟩

/-- Once the run finishes (`done` or `fault`), more fuel does not change
the result. -/
theorem run_vm_mono (tbl : RoutineTable) : ∀ {n : Nat} {s : VMState} {r : RunRes},
    run_vm tbl n s = r → (∀ s', r ≠ .timeout s') → ∀ m, n ≤ m → run_vm tbl m s = r := by
  intro n
  induction n with
  | zero =>
      intro s r h hnt m _
      rw [run_vm] at h
      exact absurd h.symm (hnt s)
  | succ n ih =>
      intro s r h hnt m hm
      match m with
      | 0 => omega
      | m + 1 =>
          rw [run_vm] at h ⊢
          cases hs : step tbl s with
          | cont s' => rw [hs] at h; exact ih h hnt m (Nat.le_of_succ_le_succ hm)
          | halt s' => rw [hs] at h; exact h
          | fault e s' => rw [hs] at h; exact h

/-- The run's final result is unique: two finishing runs agree. -/
theorem run_vm_unique (tbl : RoutineTable) {n m : Nat} {s : VMState}
    {r r' : RunRes} (h : run_vm tbl n s = r) (h' : run_vm tbl m s = r')
    (hnt : ∀ s', r ≠ .timeout s') (hnt' : ∀ s', r' ≠ .timeout s') : r = r' := by
  rcases Nat.le_total n m with hle | hle
  · rw [run_vm_mono tbl h hnt m hle] at h'; exact h'
  · rw [run_vm_mono tbl h' hnt' n hle] at h; exact h.symm

/-- State of the direct interpreter: the value stack and the printed
lines. -/
structure InterpSt where
  stack : List CauchemarVMValue
  output : List String
  deriving DecidableEq, Repr

/-- Result of a direct interpretation. -/
inductive IRes where
  | ok (st : InterpSt)
  | fault (e : Fault) (st : InterpSt)
  | timeout
  deriving DecidableEq, Repr

/-- Name resolution of the direct interpreter, matching the merged routine
table: a native name is a native (natives are inserted last and win), any
other name is looked up in the program. -/
def resolve (p : Program) (n : String) :
    Option (NativeOp ⊕ List CauchemarAST) :=
  match nativeOf n with
  | some op => some (.inl op)
  | none => (p n).map Sum.inr

/-- The naive direct recursive interpreter of AST command lists, the
specification side of compiler correctness.  Literals push, arithmetic
uses the same `binop` semantics, `if_` pops the condition and interprets
one branch, `while_` interprets its body (which ends by pushing the
condition), pops the condition, and repeats while it is true, and an
identifier runs the resolved native effect or the resolved routine's
command list.  Fuel is consumed on routine calls and on the back edge of
`while_`, so a `timeout` means the direct interpretation is still running
after that much call/loop depth. -/
def interpCmds (p : Program) : Nat → List CauchemarAST → InterpSt → IRes
  | _, [], st => .ok st
  | f, .number n :: cs, st =>
      interpCmds p f cs ⟨.number n :: st.stack, st.output⟩
  | f, .bool b :: cs, st =>
      interpCmds p f cs ⟨.bool b :: st.stack, st.output⟩
  | f, .string s :: cs, st =>
      interpCmds p f cs ⟨.string s :: st.stack, st.output⟩
  | f, .add :: cs, st =>
      match binop addFn st.stack with
      | .ok stk => interpCmds p f cs ⟨stk, st.output⟩
      | .error e => .fault e st
  | f, .sub :: cs, st =>
      match binop subFn st.stack with
      | .ok stk => interpCmds p f cs ⟨stk, st.output⟩
      | .error e => .fault e st
  | f, .mul :: cs, st =>
      match binop mulFn st.stack with
      | .ok stk => interpCmds p f cs ⟨stk, st.output⟩
      | .error e => .fault e st
  | f, .div :: cs, st =>
      match binop divFn st.stack with
      | .ok stk => interpCmds p f cs ⟨stk, st.output⟩
      | .error e => .fault e st
  | f, .if_ t e :: cs, st =>
      match st.stack with
      | .bool true :: s' =>
          match interpCmds p f t ⟨s', st.output⟩ with
          | .ok st2 => interpCmds p f cs st2
          | r => r
      | .bool false :: s' =>
          match interpCmds p f e ⟨s', st.output⟩ with
          | .ok st2 => interpCmds p f cs st2
          | r => r
      | _ :: _ => .fault .typeMismatch st
      | [] => .fault .stackUnderflow st
  | 0, .while_ b :: cs, st =>
      match interpCmds p 0 b st with
      | .ok st2 =>
          match st2.stack with
          | .bool true :: _ => .timeout
          | .bool false :: s' => interpCmds p 0 cs ⟨s', st2.output⟩
          | _ :: _ => .fault .typeMismatch st2
          | [] => .fault .stackUnderflow st2
      | r => r
  | f + 1, .while_ b :: cs, st =>
      match interpCmds p (f + 1) b st with
      | .ok st2 =>
          match st2.stack with
          | .bool true :: s' => interpCmds p f (.while_ b :: cs) ⟨s', st2.output⟩
          | .bool false :: s' => interpCmds p (f + 1) cs ⟨s', st2.output⟩
          | _ :: _ => .fault .typeMismatch st2
          | [] => .fault .stackUnderflow st2
      | r => r
  | 0, .identifier nm :: cs, st =>
      match resolve p nm with
      | none => .fault .unknownRoutine st
      | some (.inl op) =>
          match execNative op st.stack with
          | .ok (stk, ls) => interpCmds p 0 cs ⟨stk, st.output ++ ls⟩
          | .error e => .fault e st
      | some (.inr _) => .timeout
  | f + 1, .identifier nm :: cs, st =>
      match resolve p nm with
      | none => .fault .unknownRoutine st
      | some (.inl op) =>
          match execNative op st.stack with
          | .ok (stk, ls) => interpCmds p (f + 1) cs ⟨stk, st.output ++ ls⟩
          | .error e => .fault e st
      | some (.inr body) =>
          match interpCmds p f body st with
          | .ok st2 => interpCmds p (f + 1) cs st2
          | r => r
termination_by f cs _ => (f, sizeOf cs)

theorem set_append_add {α : Type} (l r : List α) (k : Nat) (v : α) :
    (l ++ r).set (l.length + k) v = l ++ r.set k v := by
  rw [List.set_append]
  simp

theorem set_append_len {α : Type} (l r : List α) (a v : α) :
    (l ++ a :: r).set l.length v = l ++ v :: r := by
  induction l with
  | nil => rfl
  | cons x l ih => simp [List.set, ih]

/-- Backpatching an `If` construct: the two `List.set` writes land on the
placeholder `JumpIfFalse` and `Jump`. -/
theorem if_patch (acc T O : List CauchemarVMInstruction) (A B : Nat) :
    ((acc ++ CauchemarVMInstruction.jumpIfFalse 0 ::
        (T ++ CauchemarVMInstruction.jump 0 ::
          (O ++ [CauchemarVMInstruction.nop]))).set acc.length
        (CauchemarVMInstruction.jumpIfFalse A)).set (acc.length + (T.length + 1))
        (CauchemarVMInstruction.jump B) =
      acc ++ CauchemarVMInstruction.jumpIfFalse A ::
        (T ++ CauchemarVMInstruction.jump B :: (O ++ [CauchemarVMInstruction.nop])) := by
  rw [set_append_len, set_append_add]
  simp only [List.set]
  rw [set_append_len]

/-- Backpatching a `While` construct: the `List.set` write lands on the
placeholder `JumpIfFalse`. -/
theorem while_patch (acc B : List CauchemarVMInstruction) (A S : Nat) :
    (acc ++ (B ++ [CauchemarVMInstruction.jumpIfFalse 0,
        CauchemarVMInstruction.jump S, CauchemarVMInstruction.nop])).set
        (acc.length + B.length) (CauchemarVMInstruction.jumpIfFalse A) =
      acc ++ (B ++ [CauchemarVMInstruction.jumpIfFalse A,
        CauchemarVMInstruction.jump S, CauchemarVMInstruction.nop]) := by
  rw [← List.append_assoc, ← List.length_append acc B,
    set_append_len (acc ++ B) [CauchemarVMInstruction.jump S,
      CauchemarVMInstruction.nop], List.append_assoc]

theorem compile_eq_append_aux : ∀ (k : Nat) (cs : List CauchemarAST),
    sizeOf cs ≤ k → ∀ acc : List CauchemarVMInstruction,
      compile_routine acc cs = acc ++ compileAtCmds acc.length cs := by
  intro k
  induction k with
  | zero =>
      intro cs h
      cases cs <;> simp_all
  | succ k ih =>
      intro cs hsz acc
      match cs with
      | [] => simp [compile_routine, compileAtCmds]
      | c :: cs' =>
          cases c with
          | number n =>
              have h1 : sizeOf cs' ≤ k := by simp_all; omega
              simp only [compile_routine, compileAtCmds, ih cs' h1]
              simp
          | bool b =>
              have h1 : sizeOf cs' ≤ k := by simp_all; omega
              simp only [compile_routine, compileAtCmds, ih cs' h1]
              simp
          | string s =>
              have h1 : sizeOf cs' ≤ k := by simp_all; omega
              simp only [compile_routine, compileAtCmds, ih cs' h1]
              simp
          | identifier s =>
              have h1 : sizeOf cs' ≤ k := by simp_all; omega
              simp only [compile_routine, compileAtCmds, ih cs' h1]
              simp
          | add =>
              have h1 : sizeOf cs' ≤ k := by simp_all; omega
              simp only [compile_routine, compileAtCmds, ih cs' h1]
              simp
          | sub =>
              have h1 : sizeOf cs' ≤ k := by simp_all; omega
              simp only [compile_routine, compileAtCmds, ih cs' h1]
              simp
          | mul =>
              have h1 : sizeOf cs' ≤ k := by simp_all; omega
              simp only [compile_routine, compileAtCmds, ih cs' h1]
              simp
          | div =>
              have h1 : sizeOf cs' ≤ k := by simp_all; omega
              simp only [compile_routine, compileAtCmds, ih cs' h1]
              simp
          | if_ t e =>
              have ht : sizeOf t ≤ k := by simp_all; omega
              have he : sizeOf e ≤ k := by simp_all; omega
              have h1 : sizeOf cs' ≤ k := by simp_all; omega
              simp only [compile_routine]
              rw [ih t ht]
              simp only [List.append_assoc, List.singleton_append,
                List.cons_append, List.nil_append,
                List.length_append, List.length_cons, List.length_nil,
                Nat.add_zero, Nat.zero_add]
              rw [ih e he]
              simp only [List.append_assoc, List.singleton_append,
                List.cons_append, List.nil_append,
                List.length_append, List.length_cons, List.length_nil,
                Nat.add_zero, Nat.zero_add]
              simp only [compileAtCmds]
              generalize compileAtCmds (acc.length + 1) t = T
              rw [show acc.length + (T.length + 1 + 1) =
                acc.length + 1 + T.length + 1 from by omega]
              generalize compileAtCmds (acc.length + 1 + T.length + 1) e = O
              rw [if_patch, ih cs' h1]
              simp only [List.append_assoc, List.cons_append, List.nil_append,
                List.singleton_append, List.length_append, List.length_cons,
                List.length_nil, List.length_set, Nat.add_zero, Nat.zero_add]
              repeat' first
                | rfl
                | omega
                | congr 1
          | while_ b =>
              have hb : sizeOf b ≤ k := by simp_all; omega
              have h1 : sizeOf cs' ≤ k := by simp_all; omega
              simp only [compile_routine]
              rw [ih b hb]
              simp only [List.append_assoc, List.singleton_append,
                List.cons_append, List.nil_append,
                List.length_append, List.length_cons, List.length_nil,
                Nat.add_zero, Nat.zero_add]
              simp only [compileAtCmds]
              generalize compileAtCmds acc.length b = B
              rw [while_patch, ih cs' h1]
              simp only [List.append_assoc, List.cons_append, List.nil_append,
                List.singleton_append, List.length_append, List.length_cons,
                List.length_nil, List.length_set, Nat.add_zero, Nat.zero_add]
              rfl

/-- The buffer-threading compiler only appends: its output is the input
buffer followed by the position-resolved code of the commands, emitted at
the buffer's length. -/
theorem compile_routine_eq_append (acc : List CauchemarVMInstruction)
    (cs : List CauchemarAST) :
    compile_routine acc cs = acc ++ compileAtCmds acc.length cs :=
  compile_eq_append_aux (sizeOf cs) cs le_rfl acc

/-- A compiled user routine is the position-resolved code of its commands
followed by the appended `Return`. -/
theorem compiledRoutine_eq (cmds : List CauchemarAST) :
    compiledRoutine cmds = compileAtCmds 0 cmds ++ [.ret] := by
  rw [compiledRoutine, compile_routine_eq_append]
  rfl

/-- `frag` occupies positions `i, i+1, ...` of `code`. -/
def FragAt (code : List CauchemarVMInstruction) (i : Nat)
    (frag : List CauchemarVMInstruction) : Prop :=
  ∀ k, k < frag.length → code[i + k]? = frag[k]?

theorem fragAt_nil (code : List CauchemarVMInstruction) (i : Nat) :
    FragAt code i [] := by
  intro k hk
  simp at hk

theorem fragAt_cons {code : List CauchemarVMInstruction} {i : Nat}
    {x : CauchemarVMInstruction} {xs : List CauchemarVMInstruction}
    (h : FragAt code i (x :: xs)) :
    code[i]? = some x ∧ FragAt code (i + 1) xs := by
  constructor
  · have := h 0 (by simp)
    simpa using this
  · intro k hk
    have := h (k + 1) (by simp; omega)
    rw [show i + 1 + k = i + (k + 1) from by omega]
    simpa using this

theorem fragAt_append {code : List CauchemarVMInstruction} {i : Nat}
    {xs ys : List CauchemarVMInstruction} (h : FragAt code i (xs ++ ys)) :
    FragAt code i xs ∧ FragAt code (i + xs.length) ys := by
  constructor
  · intro k hk
    have := h k (by simp; omega)
    rwa [List.getElem?_append_left hk] at this
  · intro k hk
    have := h (xs.length + k) (by simp; omega)
    rwa [List.getElem?_append_right (by omega), Nat.add_sub_cancel_left,
      ← Nat.add_assoc] at this

/-- A left part of a list is a fragment at position 0. -/
theorem fragAt_prefix (xs ys : List CauchemarVMInstruction) :
    FragAt (xs ++ ys) 0 xs := by
  intro k hk
  rw [Nat.zero_add, List.getElem?_append_left hk]

theorem resolve_none {p : Program} {nm : String} (h : resolve p nm = none) :
    compileProgram p nm = none := by
  rw [resolve] at h
  cases hn : nativeOf nm with
  | none =>
      rw [compileProgram_user p nm hn]
      rw [hn] at h
      cases hp : p nm with
      | none => simp
      | some body => rw [hp] at h; simp at h
  | some op => rw [hn] at h; simp at h

theorem resolve_native {p : Program} {nm : String} {op : NativeOp}
    (h : resolve p nm = some (.inl op)) :
    compileProgram p nm = some (.native op) := by
  rw [resolve] at h
  cases hn : nativeOf nm with
  | none =>
      rw [hn] at h
      cases hp : p nm with
      | none => rw [hp] at h; simp at h
      | some body => rw [hp] at h; simp at h
  | some op' =>
      rw [hn] at h
      simp at h
      rw [h] at hn
      exact compileProgram_native p nm op hn

theorem resolve_user {p : Program} {nm : String} {body : List CauchemarAST}
    (h : resolve p nm = some (.inr body)) :
    compileProgram p nm = some (.user (compiledRoutine body)) ∧ p nm = some body := by
  rw [resolve] at h
  cases hn : nativeOf nm with
  | none =>
      rw [hn] at h
      cases hp : p nm with
      | none => rw [hp] at h; simp at h
      | some body' =>
          rw [hp] at h
          simp at h
          rw [compileProgram_user p nm hn, hp, h]
          exact ⟨rfl, rfl⟩
  | some op => rw [hn] at h; simp at h

/-- The ok-clause of the simulation: an `ok` outcome of the direct
interpreter is matched by the VM reaching the frame list `fr` with the
interpreter's stack and output. -/
def SimOk (p : Program) (res : IRes) (s0 : VMState)
    (fr : List (String × Nat)) : Prop :=
  ∀ st', res = .ok st' →
    Reach (compileProgram p) s0 ⟨fr, st'.stack, st'.output⟩

/-- The fault-clause of the simulation: a `fault` outcome of the direct
interpreter is matched by the VM reaching a state that faults with the
same fault, stack and output. -/
def SimFault (p : Program) (res : IRes) (s0 : VMState) : Prop :=
  ∀ e stf, res = .fault e stf →
    ∃ sF, Reach (compileProgram p) s0 sF ∧
      step (compileProgram p) sF = .fault e sF ∧
      sF.stack = stf.stack ∧ sF.output = stf.output

/-- The timeout-clause of the simulation: a `timeout` of the direct
interpreter at fuel `f` means the VM is still running after `f` steps. -/
def SimTimeout (p : Program) (res : IRes) (s0 : VMState) (f : Nat) : Prop :=
  res = .timeout →
    ∃ n s', f ≤ n ∧ ReachN (compileProgram p) n s0 s'

def Sim (p : Program) (res : IRes) (s0 : VMState)
    (fr : List (String × Nat)) (f : Nat) : Prop :=
  SimOk p res s0 fr ∧ SimFault p res s0 ∧ SimTimeout p res s0 f

/-- Prepending VM steps to a simulation. -/
theorem sim_prepend {p : Program} {res : IRes} {s0 s1 : VMState}
    {fr : List (String × Nat)} {f : Nat}
    (hreach : Reach (compileProgram p) s0 s1)
    (h : Sim p res s1 fr f) : Sim p res s0 fr f := by
  obtain ⟨hok, hfault, htime⟩ := h
  refine ⟨?_, ?_, ?_⟩
  · intro st' hst'
    exact hreach.trans (hok st' hst')
  · intro e stf hstf
    obtain ⟨sF, h1, h2, h3, h4⟩ := hfault e stf hstf
    exact ⟨sF, hreach.trans h1, h2, h3, h4⟩
  · intro ht
    obtain ⟨n, s', hn, hr⟩ := htime ht
    obtain ⟨m, hm⟩ := reachN_of_reach _ hreach
    exact ⟨m + n, s', by omega, reachN_trans _ hm hr⟩

theorem sim_step_prepend {p : Program} {res : IRes} {s0 s1 : VMState}
    {fr : List (String × Nat)} {f : Nat}
    (hstep : step (compileProgram p) s0 = .cont s1)
    (h : Sim p res s1 fr f) : Sim p res s0 fr f :=
  sim_prepend (Relation.ReflTransGen.single hstep) h

/-- A simulation may weaken its fuel bound. -/
theorem sim_fuel_le {p : Program} {res : IRes} {s0 : VMState}
    {fr : List (String × Nat)} {f f' : Nat} (hf : f' ≤ f)
    (h : Sim p res s0 fr f) : Sim p res s0 fr f' := by
  obtain ⟨hok, hfault, htime⟩ := h
  refine ⟨hok, hfault, ?_⟩
  intro ht
  obtain ⟨n, s', hn, hr⟩ := htime ht
  exact ⟨n, s', by omega, hr⟩


theorem reach_of_reachN (tbl : RoutineTable) : ∀ {n : Nat} {s s' : VMState},
    ReachN tbl n s s' → Reach tbl s s' := by
  intro n
  induction n with
  | zero =>
      intro s s' h
      cases h
      exact Relation.ReflTransGen.refl
  | succ n ih =>
      intro s s' h
      obtain ⟨s1, hs, h⟩ := h
      exact reach_head hs (ih h)

/-- Prepending a counted chain of VM steps raises the fuel bound a
simulation supports. -/
theorem sim_prepend_count {p : Program} {res : IRes} {s0 s1 : VMState}
    {fr : List (String × Nat)} {f c : Nat}
    (hreach : ReachN (compileProgram p) c s0 s1)
    (h : Sim p res s1 fr f) : Sim p res s0 fr (f + c) := by
  obtain ⟨hok, hfault, htime⟩ := h
  refine ⟨?_, ?_, ?_⟩
  · intro st' hst'
    exact (reach_of_reachN _ hreach).trans (hok st' hst')
  · intro e stf hstf
    obtain ⟨sF, h1, h2, h3, h4⟩ := hfault e stf hstf
    exact ⟨sF, (reach_of_reachN _ hreach).trans h1, h2, h3, h4⟩
  · intro ht
    obtain ⟨n, s', hn, hr⟩ := htime ht
    exact ⟨c + n, s', by omega, reachN_trans _ hreach hr⟩

theorem sim_of_ok {p : Program} {st : InterpSt} {s0 : VMState}
    {fr : List (String × Nat)} {f : Nat}
    (h : Reach (compileProgram p) s0 ⟨fr, st.stack, st.output⟩) :
    Sim p (.ok st) s0 fr f := by
  refine ⟨?_, ?_, ?_⟩
  · intro st' h'
    cases h'
    exact h
  · intro e stf h'
    cases h'
  · intro h'
    cases h'

theorem sim_of_fault {p : Program} {e : Fault} {stf : InterpSt} {s0 : VMState}
    {fr : List (String × Nat)} {f : Nat} (sF : VMState)
    (hreach : Reach (compileProgram p) s0 sF)
    (hstep : step (compileProgram p) sF = .fault e sF)
    (hstack : sF.stack = stf.stack) (hout : sF.output = stf.output) :
    Sim p (.fault e stf) s0 fr f := by
  refine ⟨?_, ?_, ?_⟩
  · intro st' h'
    cases h'
  · intro e' stf' h'
    cases h'
    exact ⟨sF, hreach, hstep, hstack, hout⟩
  · intro h'
    cases h'

theorem sim_of_timeout {p : Program} {s0 : VMState}
    {fr : List (String × Nat)} {f : Nat} (n : Nat) (s' : VMState)
    (hn : f ≤ n) (hr : ReachN (compileProgram p) n s0 s') :
    Sim p .timeout s0 fr f := by
  refine ⟨?_, ?_, ?_⟩
  · intro st' h'
    cases h'
  · intro e stf h'
    cases h'
  · intro h'
    exact ⟨n, s', hn, hr⟩

/-- Forward simulation: an outcome of the direct interpreter on `cmds` is
matched by the VM running the compiled code of `cmds` placed at position
`i` of the current routine, ending at the position after the fragment. -/
theorem sim_main (p : Program) :
    ∀ (f : Nat) (cmds : List CauchemarAST) (st : InterpSt) (name : String)
      (code : List CauchemarVMInstruction) (i : Nat)
      (rest : List (String × Nat)),
      compileProgram p name = some (.user code) →
      FragAt code i (compileAtCmds i cmds) →
      Sim p (interpCmds p f cmds st)
        ⟨(name, i) :: rest, st.stack, st.output⟩
        ((name, i + (compileAtCmds i cmds).length) :: rest) f := by
  intro f
  induction f using Nat.strong_induction_on with
  | _ f IHf =>
  have inner : ∀ (k : Nat) (cmds : List CauchemarAST), sizeOf cmds ≤ k →
      ∀ (st : InterpSt) (name : String)
        (code : List CauchemarVMInstruction) (i : Nat)
        (rest : List (String × Nat)),
        compileProgram p name = some (.user code) →
        FragAt code i (compileAtCmds i cmds) →
        Sim p (interpCmds p f cmds st)
          ⟨(name, i) :: rest, st.stack, st.output⟩
          ((name, i + (compileAtCmds i cmds).length) :: rest) f := by
    intro k
    induction k with
    | zero =>
        intro cmds h
        cases cmds <;> simp_all
    | succ k IHk =>
        intro cmds hsz st name code i rest hT hF
        match cmds with
        | [] =>
            simp only [interpCmds, compileAtCmds, List.length_nil,
              Nat.add_zero]
            exact sim_of_ok Relation.ReflTransGen.refl
        | c :: cs' =>
            cases c with
            | number n =>
                have h1 : sizeOf cs' ≤ k := by simp_all; omega
                simp only [compileAtCmds] at hF
                obtain ⟨g0, hF'⟩ := fragAt_cons hF
                simp only [interpCmds, compileAtCmds, List.length_cons]
                rw [show i + ((compileAtCmds (i + 1) cs').length + 1) =
                  i + 1 + (compileAtCmds (i + 1) cs').length from by omega]
                have hstep : step (compileProgram p)
                    ⟨(name, i) :: rest, st.stack, st.output⟩ =
                    .cont ⟨(name, i + 1) :: rest, .number n :: st.stack, st.output⟩ := by
                  simp [step, hT, g0]
                exact sim_step_prepend hstep
                  (IHk cs' h1 ⟨.number n :: st.stack, st.output⟩ name code (i + 1) rest hT hF')
            | bool b =>
                have h1 : sizeOf cs' ≤ k := by simp_all; omega
                simp only [compileAtCmds] at hF
                obtain ⟨g0, hF'⟩ := fragAt_cons hF
                simp only [interpCmds, compileAtCmds, List.length_cons]
                rw [show i + ((compileAtCmds (i + 1) cs').length + 1) =
                  i + 1 + (compileAtCmds (i + 1) cs').length from by omega]
                have hstep : step (compileProgram p)
                    ⟨(name, i) :: rest, st.stack, st.output⟩ =
                    .cont ⟨(name, i + 1) :: rest, .bool b :: st.stack, st.output⟩ := by
                  simp [step, hT, g0]
                exact sim_step_prepend hstep
                  (IHk cs' h1 ⟨.bool b :: st.stack, st.output⟩ name code (i + 1) rest hT hF')
            | string s =>
                have h1 : sizeOf cs' ≤ k := by simp_all; omega
                simp only [compileAtCmds] at hF
                obtain ⟨g0, hF'⟩ := fragAt_cons hF
                simp only [interpCmds, compileAtCmds, List.length_cons]
                rw [show i + ((compileAtCmds (i + 1) cs').length + 1) =
                  i + 1 + (compileAtCmds (i + 1) cs').length from by omega]
                have hstep : step (compileProgram p)
                    ⟨(name, i) :: rest, st.stack, st.output⟩ =
                    .cont ⟨(name, i + 1) :: rest, .string s :: st.stack, st.output⟩ := by
                  simp [step, hT, g0]
                exact sim_step_prepend hstep
                  (IHk cs' h1 ⟨.string s :: st.stack, st.output⟩ name code (i + 1) rest hT hF')
            | identifier nm =>
                have h1 : sizeOf cs' ≤ k := by simp_all; omega
                simp only [compileAtCmds] at hF
                obtain ⟨g0, hF'⟩ := fragAt_cons hF
                have hfr : i + (compileAtCmds i (CauchemarAST.identifier nm :: cs')).length
                    = i + 1 + (compileAtCmds (i + 1) cs').length := by
                  simp only [compileAtCmds, List.length_cons]
                  omega
                have hstepC : step (compileProgram p)
                    ⟨(name, i) :: rest, st.stack, st.output⟩
                    = .cont ⟨(nm, 0) :: (name, i + 1) :: rest, st.stack, st.output⟩ := by
                  simp [step, hT, g0]
                cases f with
                | zero =>
                    simp only [interpCmds]
                    rw [hfr]
                    cases hres : resolve p nm with
                    | none =>
                        exact sim_of_fault
                          ⟨(nm, 0) :: (name, i + 1) :: rest, st.stack, st.output⟩
                          (reach_one hstepC) (by simp [step, resolve_none hres]) rfl rfl
                    | some v =>
                        cases v with
                        | inl op =>
                            dsimp only
                            cases hex : execNative op st.stack with
                            | ok pr =>
                                obtain ⟨stk, ls⟩ := pr
                                dsimp only
                                have hstepN : step (compileProgram p)
                                    ⟨(nm, 0) :: (name, i + 1) :: rest, st.stack, st.output⟩
                                    = .cont ⟨(name, i + 1) :: rest, stk, st.output ++ ls⟩ := by
                                  simp [step, resolve_native hres, hex]
                                exact sim_prepend (reach_head hstepC (reach_one hstepN))
                                  (IHk cs' h1 ⟨stk, st.output ++ ls⟩ name code (i + 1) rest hT hF')
                            | error e2 =>
                                exact sim_of_fault
                                  ⟨(nm, 0) :: (name, i + 1) :: rest, st.stack, st.output⟩
                                  (reach_one hstepC)
                                  (by simp [step, resolve_native hres, hex]) rfl rfl
                        | inr body =>
                            exact sim_of_timeout 0 _ (by omega) rfl
                | succ f' =>
                    simp only [interpCmds]
                    rw [hfr]
                    cases hres : resolve p nm with
                    | none =>
                        exact sim_of_fault
                          ⟨(nm, 0) :: (name, i + 1) :: rest, st.stack, st.output⟩
                          (reach_one hstepC) (by simp [step, resolve_none hres]) rfl rfl
                    | some v =>
                        cases v with
                        | inl op =>
                            dsimp only
                            cases hex : execNative op st.stack with
                            | ok pr =>
                                obtain ⟨stk, ls⟩ := pr
                                dsimp only
                                have hstepN : step (compileProgram p)
                                    ⟨(nm, 0) :: (name, i + 1) :: rest, st.stack, st.output⟩
                                    = .cont ⟨(name, i + 1) :: rest, stk, st.output ++ ls⟩ := by
                                  simp [step, resolve_native hres, hex]
                                exact sim_prepend (reach_head hstepC (reach_one hstepN))
                                  (IHk cs' h1 ⟨stk, st.output ++ ls⟩ name code (i + 1) rest hT hF')
                            | error e2 =>
                                exact sim_of_fault
                                  ⟨(nm, 0) :: (name, i + 1) :: rest, st.stack, st.output⟩
                                  (reach_one hstepC)
                                  (by simp [step, resolve_native hres, hex]) rfl rfl
                        | inr body =>
                            dsimp only
                            obtain ⟨hTuser, hpnm⟩ := resolve_user hres
                            have hFbody : FragAt (compiledRoutine body) 0
                                (compileAtCmds 0 body) := by
                              rw [compiledRoutine_eq]
                              exact fragAt_prefix _ _
                            have IHbody := IHf f' (by omega) body st nm
                              (compiledRoutine body) 0 ((name, i + 1) :: rest) hTuser hFbody
                            have gR : (compiledRoutine body)[(compileAtCmds 0 body).length]? =
                                some CauchemarVMInstruction.ret := by
                              rw [compiledRoutine_eq]
                              exact List.getElem?_concat_length _ _
                            cases hrb : interpCmds p f' body st with
                            | ok st2 =>
                                have hreachB := IHbody.1 st2 hrb
                                have hstepR : step (compileProgram p)
                                    ⟨(nm, 0 + (compileAtCmds 0 body).length) ::
                                      (name, i + 1) :: rest, st2.stack, st2.output⟩
                                    = .cont ⟨(name, i + 1) :: rest, st2.stack, st2.output⟩ := by
                                  simp [step, hTuser, gR]
                                exact sim_prepend
                                  (reach_head hstepC (reach_tail hreachB hstepR))
                                  (IHk cs' h1 st2 name code (i + 1) rest hT hF')
                            | fault e2 stf =>
                                obtain ⟨sF, hr, hs, h3, h4⟩ := IHbody.2.1 e2 stf hrb
                                exact sim_of_fault sF (reach_head hstepC hr) hs h3 h4
                            | timeout =>
                                obtain ⟨n, sX, hn, hrN⟩ := IHbody.2.2 hrb
                                exact sim_of_timeout (1 + n) sX (by omega)
                                  (reachN_trans _ (reachN_step _ hstepC) hrN)
            | if_ t e =>
                have ht : sizeOf t ≤ k := by simp_all; omega
                have he : sizeOf e ≤ k := by simp_all; omega
                have h1 : sizeOf cs' ≤ k := by simp_all; omega
                simp only [compileAtCmds] at hF
                obtain ⟨g0, hF1⟩ := fragAt_cons hF
                obtain ⟨hFT, hF2⟩ := fragAt_append hF1
                obtain ⟨gJ, hF3⟩ := fragAt_cons hF2
                obtain ⟨hFO, hF4⟩ := fragAt_append hF3
                obtain ⟨gN, hF5⟩ := fragAt_cons hF4
                simp only [interpCmds]
                have hfr : i + (compileAtCmds i (CauchemarAST.if_ t e :: cs')).length
                    = i + 1 + (compileAtCmds (i + 1) t).length + 1 + (compileAtCmds (i + 1 + (compileAtCmds (i + 1) t).length + 1) e).length + 1 + (compileAtCmds (i + 1 + (compileAtCmds (i + 1) t).length + 1 + (compileAtCmds (i + 1 + (compileAtCmds (i + 1) t).length + 1) e).length + 1) cs').length := by
                  simp only [compileAtCmds, List.length_cons, List.length_append]
                  omega
                rw [hfr]
                cases hstk : st.stack with
                | nil =>
                    exact sim_of_fault ⟨(name, i) :: rest, [], st.output⟩
                      Relation.ReflTransGen.refl (by simp [step, hT, g0]) hstk.symm rfl
                | cons v s' =>
                    cases v with
                    | number nv =>
                        exact sim_of_fault
                          ⟨(name, i) :: rest, CauchemarVMValue.number nv :: s', st.output⟩
                          Relation.ReflTransGen.refl (by simp [step, hT, g0]) hstk.symm rfl
                    | string sv =>
                        exact sim_of_fault
                          ⟨(name, i) :: rest, CauchemarVMValue.string sv :: s', st.output⟩
                          Relation.ReflTransGen.refl (by simp [step, hT, g0]) hstk.symm rfl
                    | bool bv =>
                        cases bv with
                        | true =>
                            dsimp only
                            have hstep1 : step (compileProgram p)
                                ⟨(name, i) :: rest, CauchemarVMValue.bool true :: s', st.output⟩
                                = .cont ⟨(name, i + 1) :: rest, s', st.output⟩ := by
                              simp [step, hT, g0]
                            have IHt := IHk t ht ⟨s', st.output⟩ name code (i + 1) rest hT hFT
                            cases hrt : interpCmds p f t ⟨s', st.output⟩ with
                            | ok st2 =>
                                have hreach1 := IHt.1 st2 hrt
                                have hstepJ : step (compileProgram p)
                                    ⟨(name, i + 1 + (compileAtCmds (i + 1) t).length) :: rest, st2.stack, st2.output⟩
                                    = .cont ⟨(name, i + 1 + (compileAtCmds (i + 1) t).length + 1 + (compileAtCmds (i + 1 + (compileAtCmds (i + 1) t).length + 1) e).length) :: rest, st2.stack, st2.output⟩ := by
                                  simp [step, hT, gJ]
                                have hstepN : step (compileProgram p)
                                    ⟨(name, i + 1 + (compileAtCmds (i + 1) t).length + 1 + (compileAtCmds (i + 1 + (compileAtCmds (i + 1) t).length + 1) e).length) :: rest, st2.stack, st2.output⟩
                                    = .cont ⟨(name, i + 1 + (compileAtCmds (i + 1) t).length + 1 + (compileAtCmds (i + 1 + (compileAtCmds (i + 1) t).length + 1) e).length + 1) :: rest, st2.stack, st2.output⟩ := by
                                  simp [step, hT, gN]
                                have IHcs := IHk cs' h1 st2 name code (i + 1 + (compileAtCmds (i + 1) t).length + 1 + (compileAtCmds (i + 1 + (compileAtCmds (i + 1) t).length + 1) e).length + 1) rest hT hF5
                                exact sim_prepend
                                  (reach_head hstep1
                                    (reach_tail (reach_tail hreach1 hstepJ) hstepN)) IHcs
                            | fault e2 stf =>
                                obtain ⟨sF, hr, hs, hs1, hs2⟩ := IHt.2.1 e2 stf hrt
                                exact sim_of_fault sF (reach_head hstep1 hr) hs hs1 hs2
                            | timeout =>
                                obtain ⟨n, sX, hn, hrN⟩ := IHt.2.2 hrt
                                exact sim_of_timeout (1 + n) sX (by omega)
                                  (reachN_trans _ (reachN_step _ hstep1) hrN)
                        | false =>
                            dsimp only
                            have hstep1 : step (compileProgram p)
                                ⟨(name, i) :: rest, CauchemarVMValue.bool false :: s', st.output⟩
                                = .cont ⟨(name, i + 1 + (compileAtCmds (i + 1) t).length + 1) :: rest, s', st.output⟩ := by
                              simp [step, hT, g0]
                            have IHe := IHk e he ⟨s', st.output⟩ name code (i + 1 + (compileAtCmds (i + 1) t).length + 1) rest hT hFO
                            cases hre : interpCmds p f e ⟨s', st.output⟩ with
                            | ok st2 =>
                                have hreach1 := IHe.1 st2 hre
                                have hstepN : step (compileProgram p)
                                    ⟨(name, i + 1 + (compileAtCmds (i + 1) t).length + 1 + (compileAtCmds (i + 1 + (compileAtCmds (i + 1) t).length + 1) e).length) :: rest, st2.stack, st2.output⟩
                                    = .cont ⟨(name, i + 1 + (compileAtCmds (i + 1) t).length + 1 + (compileAtCmds (i + 1 + (compileAtCmds (i + 1) t).length + 1) e).length + 1) :: rest, st2.stack, st2.output⟩ := by
                                  simp [step, hT, gN]
                                have IHcs := IHk cs' h1 st2 name code (i + 1 + (compileAtCmds (i + 1) t).length + 1 + (compileAtCmds (i + 1 + (compileAtCmds (i + 1) t).length + 1) e).length + 1) rest hT hF5
                                exact sim_prepend
                                  (reach_head hstep1 (reach_tail hreach1 hstepN)) IHcs
                            | fault e2 stf =>
                                obtain ⟨sF, hr, hs, hs1, hs2⟩ := IHe.2.1 e2 stf hre
                                exact sim_of_fault sF (reach_head hstep1 hr) hs hs1 hs2
                            | timeout =>
                                obtain ⟨n, sX, hn, hrN⟩ := IHe.2.2 hre
                                exact sim_of_timeout (1 + n) sX (by omega)
                                  (reachN_trans _ (reachN_step _ hstep1) hrN)
            | while_ b =>
                have hb : sizeOf b ≤ k := by simp_all; omega
                have h1 : sizeOf cs' ≤ k := by simp_all; omega
                have hF0 := hF
                simp only [compileAtCmds] at hF
                obtain ⟨hFB, hF2⟩ := fragAt_append hF
                obtain ⟨gJF, hF3⟩ := fragAt_cons hF2
                obtain ⟨gJ, hF4⟩ := fragAt_cons hF3
                obtain ⟨gN, hF5⟩ := fragAt_cons hF4
                rw [show i + (compileAtCmds i b).length + 1 + 1 + 1 = i + (compileAtCmds i b).length + 3 from by omega] at hF5
                rw [show i + (compileAtCmds i b).length + 1 + 1 = i + (compileAtCmds i b).length + 2 from by omega] at gN
                have hfr : i + (compileAtCmds i (CauchemarAST.while_ b :: cs')).length
                    = i + (compileAtCmds i b).length + 3 + (compileAtCmds (i + (compileAtCmds i b).length + 3) cs').length := by
                  simp only [compileAtCmds, List.length_cons, List.length_append]
                  omega
                have IHb := IHk b hb st name code i rest hT hFB
                cases f with
                | zero =>
                    simp only [interpCmds]
                    rw [hfr]
                    cases hrb : interpCmds p 0 b st with
                    | ok st2 =>
                        dsimp only
                        have hreachB := IHb.1 st2 hrb
                        cases hstk : st2.stack with
                        | nil =>
                            dsimp only
                            refine sim_of_fault
                              ⟨(name, i + (compileAtCmds i b).length) :: rest, st2.stack, st2.output⟩
                              hreachB ?_ rfl rfl
                            simp [step, hT, gJF, hstk]
                        | cons v s' =>
                            cases v with
                            | number nv =>
                                dsimp only
                                refine sim_of_fault
                                  ⟨(name, i + (compileAtCmds i b).length) :: rest, st2.stack, st2.output⟩
                                  hreachB ?_ rfl rfl
                                simp [step, hT, gJF, hstk]
                            | string sv =>
                                dsimp only
                                refine sim_of_fault
                                  ⟨(name, i + (compileAtCmds i b).length) :: rest, st2.stack, st2.output⟩
                                  hreachB ?_ rfl rfl
                                simp [step, hT, gJF, hstk]
                            | bool bv =>
                                cases bv with
                                | true =>
                                    dsimp only
                                    obtain ⟨c, hc⟩ := reachN_of_reach _ hreachB
                                    exact sim_of_timeout c _ (by omega) hc
                                | false =>
                                    dsimp only
                                    have hstepJF : step (compileProgram p)
                                        ⟨(name, i + (compileAtCmds i b).length) :: rest, st2.stack, st2.output⟩
                                        = .cont ⟨(name, i + (compileAtCmds i b).length + 2) :: rest, s', st2.output⟩ := by
                                      simp [step, hT, gJF, hstk]
                                    have hstepN : step (compileProgram p)
                                        ⟨(name, i + (compileAtCmds i b).length + 2) :: rest, s', st2.output⟩
                                        = .cont ⟨(name, i + (compileAtCmds i b).length + 3) :: rest, s', st2.output⟩ := by
                                      simp [step, hT, gN]
                                    exact sim_prepend
                                      (reach_tail (reach_tail hreachB hstepJF) hstepN)
                                      (IHk cs' h1 ⟨s', st2.output⟩ name code
                                        (i + (compileAtCmds i b).length + 3) rest hT hF5)
                    | fault e2 stf =>
                        obtain ⟨sF, hr, hs, h3, h4⟩ := IHb.2.1 e2 stf hrb
                        exact sim_of_fault sF hr hs h3 h4
                    | timeout =>
                        obtain ⟨n, sX, hn, hrN⟩ := IHb.2.2 hrb
                        exact sim_of_timeout n sX (by omega) hrN
                | succ f' =>
                    simp only [interpCmds]
                    rw [hfr]
                    cases hrb : interpCmds p (f' + 1) b st with
                    | ok st2 =>
                        dsimp only
                        have hreachB := IHb.1 st2 hrb
                        cases hstk : st2.stack with
                        | nil =>
                            dsimp only
                            refine sim_of_fault
                              ⟨(name, i + (compileAtCmds i b).length) :: rest, st2.stack, st2.output⟩
                              hreachB ?_ rfl rfl
                            simp [step, hT, gJF, hstk]
                        | cons v s' =>
                            cases v with
                            | number nv =>
                                dsimp only
                                refine sim_of_fault
                                  ⟨(name, i + (compileAtCmds i b).length) :: rest, st2.stack, st2.output⟩
                                  hreachB ?_ rfl rfl
                                simp [step, hT, gJF, hstk]
                            | string sv =>
                                dsimp only
                                refine sim_of_fault
                                  ⟨(name, i + (compileAtCmds i b).length) :: rest, st2.stack, st2.output⟩
                                  hreachB ?_ rfl rfl
                                simp [step, hT, gJF, hstk]
                            | bool bv =>
                                cases bv with
                                | true =>
                                    dsimp only
                                    have hstepJF : step (compileProgram p)
                                        ⟨(name, i + (compileAtCmds i b).length) :: rest, st2.stack, st2.output⟩
                                        = .cont ⟨(name, i + (compileAtCmds i b).length + 1) :: rest, s', st2.output⟩ := by
                                      simp [step, hT, gJF, hstk]
                                    have hstepJ : step (compileProgram p)
                                        ⟨(name, i + (compileAtCmds i b).length + 1) :: rest, s', st2.output⟩
                                        = .cont ⟨(name, i) :: rest, s', st2.output⟩ := by
                                      simp [step, hT, gJ]
                                    have IHrec := IHf f' (by omega) (.while_ b :: cs')
                                      ⟨s', st2.output⟩ name code i rest hT hF0
                                    rw [hfr] at IHrec
                                    have h2 : Sim p
                                        (interpCmds p f' (CauchemarAST.while_ b :: cs')
                                          ⟨s', st2.output⟩)
                                        ⟨(name, i + (compileAtCmds i b).length) :: rest, st2.stack, st2.output⟩
                                        ((name, i + (compileAtCmds i b).length + 3 +
                                          (compileAtCmds (i + (compileAtCmds i b).length + 3) cs').length) :: rest)
                                        (f' + 2) :=
                                      sim_prepend_count
                                        (reachN_trans _ (reachN_step _ hstepJF)
                                          (reachN_step _ hstepJ)) IHrec
                                    exact sim_prepend hreachB (sim_fuel_le (by omega) h2)
                                | false =>
                                    dsimp only
                                    have hstepJF : step (compileProgram p)
                                        ⟨(name, i + (compileAtCmds i b).length) :: rest, st2.stack, st2.output⟩
                                        = .cont ⟨(name, i + (compileAtCmds i b).length + 2) :: rest, s', st2.output⟩ := by
                                      simp [step, hT, gJF, hstk]
                                    have hstepN : step (compileProgram p)
                                        ⟨(name, i + (compileAtCmds i b).length + 2) :: rest, s', st2.output⟩
                                        = .cont ⟨(name, i + (compileAtCmds i b).length + 3) :: rest, s', st2.output⟩ := by
                                      simp [step, hT, gN]
                                    exact sim_prepend
                                      (reach_tail (reach_tail hreachB hstepJF) hstepN)
                                      (IHk cs' h1 ⟨s', st2.output⟩ name code
                                        (i + (compileAtCmds i b).length + 3) rest hT hF5)
                    | fault e2 stf =>
                        obtain ⟨sF, hr, hs, h3, h4⟩ := IHb.2.1 e2 stf hrb
                        exact sim_of_fault sF hr hs h3 h4
                    | timeout =>
                        obtain ⟨n, sX, hn, hrN⟩ := IHb.2.2 hrb
                        exact sim_of_timeout n sX (by omega) hrN
            | add =>
                have h1 : sizeOf cs' ≤ k := by simp_all; omega
                simp only [compileAtCmds] at hF
                obtain ⟨g0, hF'⟩ := fragAt_cons hF
                simp only [interpCmds, compileAtCmds, List.length_cons]
                rw [show i + ((compileAtCmds (i + 1) cs').length + 1) =
                  i + 1 + (compileAtCmds (i + 1) cs').length from by omega]
                cases hb : binop addFn st.stack with
                | ok stk =>
                    have hstep : step (compileProgram p)
                        ⟨(name, i) :: rest, st.stack, st.output⟩ =
                        .cont ⟨(name, i + 1) :: rest, stk, st.output⟩ := by
                      simp [step, hT, g0, hb]
                    exact sim_step_prepend hstep
                      (IHk cs' h1 ⟨stk, st.output⟩ name code (i + 1) rest hT hF')
                | error e =>
                    exact sim_of_fault ⟨(name, i) :: rest, st.stack, st.output⟩
                      Relation.ReflTransGen.refl (by simp [step, hT, g0, hb]) rfl rfl
            | sub =>
                have h1 : sizeOf cs' ≤ k := by simp_all; omega
                simp only [compileAtCmds] at hF
                obtain ⟨g0, hF'⟩ := fragAt_cons hF
                simp only [interpCmds, compileAtCmds, List.length_cons]
                rw [show i + ((compileAtCmds (i + 1) cs').length + 1) =
                  i + 1 + (compileAtCmds (i + 1) cs').length from by omega]
                cases hb : binop subFn st.stack with
                | ok stk =>
                    have hstep : step (compileProgram p)
                        ⟨(name, i) :: rest, st.stack, st.output⟩ =
                        .cont ⟨(name, i + 1) :: rest, stk, st.output⟩ := by
                      simp [step, hT, g0, hb]
                    exact sim_step_prepend hstep
                      (IHk cs' h1 ⟨stk, st.output⟩ name code (i + 1) rest hT hF')
                | error e =>
                    exact sim_of_fault ⟨(name, i) :: rest, st.stack, st.output⟩
                      Relation.ReflTransGen.refl (by simp [step, hT, g0, hb]) rfl rfl
            | mul =>
                have h1 : sizeOf cs' ≤ k := by simp_all; omega
                simp only [compileAtCmds] at hF
                obtain ⟨g0, hF'⟩ := fragAt_cons hF
                simp only [interpCmds, compileAtCmds, List.length_cons]
                rw [show i + ((compileAtCmds (i + 1) cs').length + 1) =
                  i + 1 + (compileAtCmds (i + 1) cs').length from by omega]
                cases hb : binop mulFn st.stack with
                | ok stk =>
                    have hstep : step (compileProgram p)
                        ⟨(name, i) :: rest, st.stack, st.output⟩ =
                        .cont ⟨(name, i + 1) :: rest, stk, st.output⟩ := by
                      simp [step, hT, g0, hb]
                    exact sim_step_prepend hstep
                      (IHk cs' h1 ⟨stk, st.output⟩ name code (i + 1) rest hT hF')
                | error e =>
                    exact sim_of_fault ⟨(name, i) :: rest, st.stack, st.output⟩
                      Relation.ReflTransGen.refl (by simp [step, hT, g0, hb]) rfl rfl
            | div =>
                have h1 : sizeOf cs' ≤ k := by simp_all; omega
                simp only [compileAtCmds] at hF
                obtain ⟨g0, hF'⟩ := fragAt_cons hF
                simp only [interpCmds, compileAtCmds, List.length_cons]
                rw [show i + ((compileAtCmds (i + 1) cs').length + 1) =
                  i + 1 + (compileAtCmds (i + 1) cs').length from by omega]
                cases hb : binop divFn st.stack with
                | ok stk =>
                    have hstep : step (compileProgram p)
                        ⟨(name, i) :: rest, st.stack, st.output⟩ =
                        .cont ⟨(name, i + 1) :: rest, stk, st.output⟩ := by
                      simp [step, hT, g0, hb]
                    exact sim_step_prepend hstep
                      (IHk cs' h1 ⟨stk, st.output⟩ name code (i + 1) rest hT hF')
                | error e =>
                    exact sim_of_fault ⟨(name, i) :: rest, st.stack, st.output⟩
                      Relation.ReflTransGen.refl (by simp [step, hT, g0, hb]) rfl rfl
  exact fun cmds => inner (sizeOf cmds) cmds le_rfl

/-- The entry routine name is not a native name. -/
theorem nativeOf_PROGRAM : nativeOf "PROGRAM" = none := by decide

/-- The compiled table resolves `PROGRAM` to its compiled routine. -/
theorem compileProgram_PROGRAM {p : Program} {entry : List CauchemarAST}
    (h : p "PROGRAM" = some entry) :
    compileProgram p "PROGRAM" = some (.user (compiledRoutine entry)) := by
  rw [compileProgram_user p "PROGRAM" nativeOf_PROGRAM, h]
  rfl

/-- Forward simulation at the program level: every outcome of directly
interpreting the entry routine is realised by the compiled VM started on
the initial frame. -/
theorem run_of_interp (p : Program) (entry : List CauchemarAST)
    (h : p "PROGRAM" = some entry) (f : Nat) :
    (∀ st', interpCmds p f entry ⟨[], []⟩ = .ok st' →
      ∃ n, run_vm (compileProgram p) n ⟨[("PROGRAM", 0)], [], []⟩ =
        .done ⟨[], st'.stack, st'.output⟩)
    ∧ (∀ e stf, interpCmds p f entry ⟨[], []⟩ = .fault e stf →
      ∃ n sF, run_vm (compileProgram p) n ⟨[("PROGRAM", 0)], [], []⟩ =
        .fault e sF ∧ sF.stack = stf.stack ∧ sF.output = stf.output)
    ∧ (interpCmds p f entry ⟨[], []⟩ = .timeout →
      ∀ m ≤ f, ∃ s'', run_vm (compileProgram p) m ⟨[("PROGRAM", 0)], [], []⟩ =
        .timeout s'') := by
  have hTP := compileProgram_PROGRAM h
  have hFbody : FragAt (compiledRoutine entry) 0 (compileAtCmds 0 entry) := by
    rw [compiledRoutine_eq]
    exact fragAt_prefix _ _
  have gR : (compiledRoutine entry)[(compileAtCmds 0 entry).length]? =
      some CauchemarVMInstruction.ret := by
    rw [compiledRoutine_eq]
    exact List.getElem?_concat_length _ _
  have S := sim_main p f entry ⟨[], []⟩ "PROGRAM" (compiledRoutine entry) 0 []
    hTP hFbody
  refine ⟨?_, ?_, ?_⟩
  · intro st' hok
    have hreach := S.1 st' hok
    have hstepH : step (compileProgram p)
        ⟨[("PROGRAM", 0 + (compileAtCmds 0 entry).length)], st'.stack, st'.output⟩
        = .halt ⟨[], st'.stack, st'.output⟩ := by
      simp [step, hTP, gR]
    exact reach_run_done _ hreach hstepH
  · intro e stf hfault
    obtain ⟨sF, hr, hs, h3, h4⟩ := S.2.1 e stf hfault
    obtain ⟨n, hn⟩ := reach_run_fault _ hr hs
    exact ⟨n, sF, hn, h3, h4⟩
  · intro ht m hm
    obtain ⟨n, s', hn, hrN⟩ := S.2.2 ht
    exact reachN_timeout _ hrN m (by omega)

/-- An observable outcome of a run: a clean halt with a residual value
stack and the printed output, or a fatal fault after some output. -/
inductive Outcome where
  | halts (stack : List CauchemarVMValue) (output : List String)
  | faults (e : Fault) (output : List String)

/-- The direct interpreter produces the outcome (with some fuel). -/
def InterpObs (p : Program) (entry : List CauchemarAST) (o : Outcome) : Prop :=
  match o with
  | .halts stk out => ∃ f st', interpCmds p f entry ⟨[], []⟩ = .ok st' ∧
      st'.stack = stk ∧ st'.output = out
  | .faults e out => ∃ f stf, interpCmds p f entry ⟨[], []⟩ = .fault e stf ∧
      stf.output = out

/-- The compiled VM produces the outcome (with some fuel). -/
def VMObs (p : Program) (o : Outcome) : Prop :=
  match o with
  | .halts stk out => ∃ n, run_vm (compileProgram p) n
      ⟨[("PROGRAM", 0)], [], []⟩ = .done ⟨[], stk, out⟩
  | .faults e out => ∃ n sF, run_vm (compileProgram p) n
      ⟨[("PROGRAM", 0)], [], []⟩ = .fault e sF ∧ sF.output = out

/-- C1.  Compiling a program with `compile_cauchemar_program` and running
the bytecode with `run_vm` is observationally equivalent to the naive
direct recursive interpretation of the AST: the two produce exactly the
same outcomes (same printed output, same fault, same residual value
stack). -/
theorem compile_run_equiv (p : Program) (entry : List CauchemarAST)
    (h : p "PROGRAM" = some entry) (o : Outcome) :
    InterpObs p entry o ↔ VMObs p o := by
  constructor
  · intro hio
    cases o with
    | halts stk out =>
        obtain ⟨f, st', hok, h1, h2⟩ := hio
        obtain ⟨n, hn⟩ := (run_of_interp p entry h f).1 st' hok
        rw [h1, h2] at hn
        exact ⟨n, hn⟩
    | faults e out =>
        obtain ⟨f, stf, hfault, h1⟩ := hio
        obtain ⟨n, sF, hn, _, h4⟩ := (run_of_interp p entry h f).2.1 e stf hfault
        exact ⟨n, sF, hn, by rw [h4, h1]⟩
  · intro hvm
    cases o with
    | halts stk out =>
        obtain ⟨n, hn⟩ := hvm
        cases hint : interpCmds p (n + 1) entry ⟨[], []⟩ with
        | ok st' =>
            obtain ⟨m, hm⟩ := (run_of_interp p entry h (n + 1)).1 st' hint
            have := run_vm_unique _ hn hm (fun s' hs => by cases hs)
              (fun s' hs => by cases hs)
            rw [RunRes.done.injEq, VMState.mk.injEq] at this
            exact ⟨n + 1, st', hint, this.2.1.symm, this.2.2.symm⟩
        | fault e stf =>
            obtain ⟨m, sF, hm, _, _⟩ :=
              (run_of_interp p entry h (n + 1)).2.1 e stf hint
            have := run_vm_unique _ hn hm (fun s' hs => by cases hs)
              (fun s' hs => by cases hs)
            cases this
        | timeout =>
            obtain ⟨s'', hs⟩ :=
              (run_of_interp p entry h (n + 1)).2.2 hint n (by omega)
            rw [hn] at hs
            cases hs
    | faults e out =>
        obtain ⟨n, sF, hn, hout⟩ := hvm
        cases hint : interpCmds p (n + 1) entry ⟨[], []⟩ with
        | ok st' =>
            obtain ⟨m, hm⟩ := (run_of_interp p entry h (n + 1)).1 st' hint
            have := run_vm_unique _ hn hm (fun s' hs => by cases hs)
              (fun s' hs => by cases hs)
            cases this
        | fault e2 stf =>
            obtain ⟨m, sF2, hm, _, h4⟩ :=
              (run_of_interp p entry h (n + 1)).2.1 e2 stf hint
            have := run_vm_unique _ hn hm (fun s' hs => by cases hs)
              (fun s' hs => by cases hs)
            rw [RunRes.fault.injEq] at this
            obtain ⟨he, hsF⟩ := this
            refine ⟨n + 1, stf, ?_, ?_⟩
            · rw [hint, he]
            · rw [← h4, ← hsF, hout]
        | timeout =>
            obtain ⟨s'', hs⟩ :=
              (run_of_interp p entry h (n + 1)).2.2 hint n (by omega)
            rw [hn] at hs
            cases hs

/-- Witness for C1: on the concrete program `PROGRAM: 2 3 +` the direct
interpretation halts with `5` on the stack, so the compiled VM does too. -/
theorem compile_run_equiv_witness :
    ∃ n, run_vm
      (compileProgram (fun nm => if nm = "PROGRAM" then
        some [CauchemarAST.number 2, CauchemarAST.number 3, CauchemarAST.add]
        else none)) n ⟨[("PROGRAM", 0)], [], []⟩ =
      .done ⟨[], [CauchemarVMValue.number 5], []⟩ := by
  refine (compile_run_equiv
    (fun nm => if nm = "PROGRAM" then
      some [CauchemarAST.number 2, CauchemarAST.number 3, CauchemarAST.add]
      else none)
    [CauchemarAST.number 2, CauchemarAST.number 3, CauchemarAST.add]
    (by simp) (.halts [CauchemarVMValue.number 5] [])).mp ?_
  exact ⟨1, ⟨[CauchemarVMValue.number 5], []⟩,
    by simp [interpCmds, binop, addFn], rfl, rfl⟩

theorem execNative_no_oob (op : NativeOp) (stk : List CauchemarVMValue)
    (e : Fault) (h : execNative op stk = .error e) : e ≠ .frameIndexOOB := by
  intro he
  subst he
  cases op <;>
    rcases stk with _ | ⟨n1 | b1 | s1, _ | ⟨n2 | b2 | s2, _ | ⟨n3 | b3 | s3, r⟩⟩⟩ <;>
    try simp_all [execNative, execNative.numberComparison]
  all_goals cases b1 <;> simp_all

theorem binop_no_oob (g : Int → Int → Except Fault Int)
    (stk : List CauchemarVMValue) (e : Fault)
    (hg : ∀ a b, g a b ≠ .error .frameIndexOOB)
    (h : binop g stk = .error e) : e ≠ .frameIndexOOB := by
  intro he
  subst he
  rcases stk with _ | ⟨n1 | b1 | s1, _ | ⟨n2 | b2 | s2, r⟩⟩ <;>
    simp_all [binop]
  cases hgab : g n2 n1 with
  | ok v => rw [hgab] at h; simp at h
  | error e' =>
      rw [hgab] at h
      simp at h
      rw [h] at hgab
      exact hg n2 n1 hgab

theorem addFn_no_oob (a b : Int) : addFn a b ≠ .error .frameIndexOOB := by
  simp [addFn]

theorem subFn_no_oob (a b : Int) : subFn a b ≠ .error .frameIndexOOB := by
  simp [subFn]

theorem mulFn_no_oob (a b : Int) : mulFn a b ≠ .error .frameIndexOOB := by
  simp [mulFn]

theorem divFn_no_oob (a b : Int) : divFn a b ≠ .error .frameIndexOOB := by
  rw [divFn]
  split <;> simp

/-- Jump targets of an instruction are below `n`. -/
def instrTargOk (n : Nat) : CauchemarVMInstruction → Prop
  | .jump t => t < n
  | .jumpIfFalse t => t < n
  | _ => True

theorem instrTargOk_mono {n m : Nat} {x : CauchemarVMInstruction}
    (h : n ≤ m) (hx : instrTargOk n x) : instrTargOk m x := by
  cases x <;> simp_all [instrTargOk] <;> omega

/-- Every instruction the compiler emits for a command list is not a
`Return`, and its jump target (if any) stays inside the emitted
fragment. -/
theorem compileAt_mem_ok : ∀ (k : Nat) (cmds : List CauchemarAST),
    sizeOf cmds ≤ k →
    ∀ (i : Nat) (x : CauchemarVMInstruction), x ∈ compileAtCmds i cmds →
      x ≠ .ret ∧ instrTargOk (i + (compileAtCmds i cmds).length) x := by
  intro k
  induction k with
  | zero =>
      intro cmds h
      cases cmds <;> simp_all
  | succ k ih =>
      intro cmds hsz i x hx
      match cmds with
      | [] => simp [compileAtCmds] at hx
      | .number n :: cs' =>
          have h1 : sizeOf cs' ≤ k := by simp_all; omega
          simp only [compileAtCmds, List.mem_cons] at hx
          rcases hx with rfl | hx
          · exact ⟨by simp, by simp [instrTargOk]⟩
          · obtain ⟨hr, ht⟩ := ih cs' h1 (i + 1) x hx
            refine ⟨hr, instrTargOk_mono ?_ ht⟩
            simp only [compileAtCmds, List.length_cons]
            omega
      | .bool b :: cs' =>
          have h1 : sizeOf cs' ≤ k := by simp_all; omega
          simp only [compileAtCmds, List.mem_cons] at hx
          rcases hx with rfl | hx
          · exact ⟨by simp, by simp [instrTargOk]⟩
          · obtain ⟨hr, ht⟩ := ih cs' h1 (i + 1) x hx
            refine ⟨hr, instrTargOk_mono ?_ ht⟩
            simp only [compileAtCmds, List.length_cons]
            omega
      | .string s :: cs' =>
          have h1 : sizeOf cs' ≤ k := by simp_all; omega
          simp only [compileAtCmds, List.mem_cons] at hx
          rcases hx with rfl | hx
          · exact ⟨by simp, by simp [instrTargOk]⟩
          · obtain ⟨hr, ht⟩ := ih cs' h1 (i + 1) x hx
            refine ⟨hr, instrTargOk_mono ?_ ht⟩
            simp only [compileAtCmds, List.length_cons]
            omega
      | .identifier s :: cs' =>
          have h1 : sizeOf cs' ≤ k := by simp_all; omega
          simp only [compileAtCmds, List.mem_cons] at hx
          rcases hx with rfl | hx
          · exact ⟨by simp, by simp [instrTargOk]⟩
          · obtain ⟨hr, ht⟩ := ih cs' h1 (i + 1) x hx
            refine ⟨hr, instrTargOk_mono ?_ ht⟩
            simp only [compileAtCmds, List.length_cons]
            omega
      | .add :: cs' =>
          have h1 : sizeOf cs' ≤ k := by simp_all; omega
          simp only [compileAtCmds, List.mem_cons] at hx
          rcases hx with rfl | hx
          · exact ⟨by simp, by simp [instrTargOk]⟩
          · obtain ⟨hr, ht⟩ := ih cs' h1 (i + 1) x hx
            refine ⟨hr, instrTargOk_mono ?_ ht⟩
            simp only [compileAtCmds, List.length_cons]
            omega
      | .sub :: cs' =>
          have h1 : sizeOf cs' ≤ k := by simp_all; omega
          simp only [compileAtCmds, List.mem_cons] at hx
          rcases hx with rfl | hx
          · exact ⟨by simp, by simp [instrTargOk]⟩
          · obtain ⟨hr, ht⟩ := ih cs' h1 (i + 1) x hx
            refine ⟨hr, instrTargOk_mono ?_ ht⟩
            simp only [compileAtCmds, List.length_cons]
            omega
      | .mul :: cs' =>
          have h1 : sizeOf cs' ≤ k := by simp_all; omega
          simp only [compileAtCmds, List.mem_cons] at hx
          rcases hx with rfl | hx
          · exact ⟨by simp, by simp [instrTargOk]⟩
          · obtain ⟨hr, ht⟩ := ih cs' h1 (i + 1) x hx
            refine ⟨hr, instrTargOk_mono ?_ ht⟩
            simp only [compileAtCmds, List.length_cons]
            omega
      | .div :: cs' =>
          have h1 : sizeOf cs' ≤ k := by simp_all; omega
          simp only [compileAtCmds, List.mem_cons] at hx
          rcases hx with rfl | hx
          · exact ⟨by simp, by simp [instrTargOk]⟩
          · obtain ⟨hr, ht⟩ := ih cs' h1 (i + 1) x hx
            refine ⟨hr, instrTargOk_mono ?_ ht⟩
            simp only [compileAtCmds, List.length_cons]
            omega
      | .if_ t e :: cs' =>
          have ht' : sizeOf t ≤ k := by simp_all; omega
          have he' : sizeOf e ≤ k := by simp_all; omega
          have h1 : sizeOf cs' ≤ k := by simp_all; omega
          have hlen : (compileAtCmds i (CauchemarAST.if_ t e :: cs')).length =
              1 + (compileAtCmds (i + 1) t).length + 1 +
              (compileAtCmds (i + 1 + (compileAtCmds (i + 1) t).length + 1) e).length +
              1 + (compileAtCmds (i + 1 + (compileAtCmds (i + 1) t).length + 1 +
                (compileAtCmds (i + 1 + (compileAtCmds (i + 1) t).length + 1) e).length +
                1) cs').length := by
            simp only [compileAtCmds, List.length_cons, List.length_append]
            omega
          simp only [compileAtCmds, List.mem_cons, List.mem_append] at hx
          rcases hx with rfl | (hx | (rfl | (hx | (rfl | hx))))
          · refine ⟨by simp, ?_⟩
            simp only [instrTargOk, hlen]
            omega
          · obtain ⟨hr, hta⟩ := ih t ht' (i + 1) x hx
            refine ⟨hr, instrTargOk_mono ?_ hta⟩
            rw [hlen]
            omega
          · refine ⟨by simp, ?_⟩
            simp only [instrTargOk, hlen]
            omega
          · obtain ⟨hr, hta⟩ := ih e he'
              (i + 1 + (compileAtCmds (i + 1) t).length + 1) x hx
            refine ⟨hr, instrTargOk_mono ?_ hta⟩
            rw [hlen]
            omega
          · exact ⟨by simp, by simp [instrTargOk]⟩
          · obtain ⟨hr, hta⟩ := ih cs' h1
              (i + 1 + (compileAtCmds (i + 1) t).length + 1 +
                (compileAtCmds (i + 1 + (compileAtCmds (i + 1) t).length + 1) e).length +
                1) x hx
            refine ⟨hr, instrTargOk_mono ?_ hta⟩
            rw [hlen]
            omega
      | .while_ b :: cs' =>
          have hb' : sizeOf b ≤ k := by simp_all; omega
          have h1 : sizeOf cs' ≤ k := by simp_all; omega
          have hlen : (compileAtCmds i (CauchemarAST.while_ b :: cs')).length =
              (compileAtCmds i b).length + 3 +
              (compileAtCmds (i + (compileAtCmds i b).length + 3) cs').length := by
            simp only [compileAtCmds, List.length_cons, List.length_append]
            omega
          simp only [compileAtCmds, List.mem_cons, List.mem_append] at hx
          rcases hx with hx | (rfl | (rfl | (rfl | hx)))
          · obtain ⟨hr, hta⟩ := ih b hb' i x hx
            refine ⟨hr, instrTargOk_mono ?_ hta⟩
            rw [hlen]
            omega
          · refine ⟨by simp, ?_⟩
            simp only [instrTargOk, hlen]
            omega
          · refine ⟨by simp, ?_⟩
            simp only [instrTargOk, hlen]
            omega
          · exact ⟨by simp, by simp [instrTargOk]⟩
          · obtain ⟨hr, hta⟩ := ih cs' h1
              (i + (compileAtCmds i b).length + 3) x hx
            refine ⟨hr, instrTargOk_mono ?_ hta⟩
            rw [hlen]
            omega

/-- The well-formedness of one compiled routine's code, as the frame-index
invariant needs it: nonempty, a non-`Return` instruction is never last,
and every jump target is in bounds. -/
def WfCode (code : List CauchemarVMInstruction) : Prop :=
  0 < code.length ∧
  (∀ (j : Nat) (x : CauchemarVMInstruction), code[j]? = some x →
    x ≠ CauchemarVMInstruction.ret → j + 1 < code.length) ∧
  (∀ (j t : Nat), code[j]? = some (CauchemarVMInstruction.jump t) →
    t < code.length) ∧
  (∀ (j t : Nat), code[j]? = some (CauchemarVMInstruction.jumpIfFalse t) →
    t < code.length)

theorem compiledRoutine_wf (cmds : List CauchemarAST) :
    WfCode (compiledRoutine cmds) := by
  rw [compiledRoutine_eq]
  have hmem := compileAt_mem_ok (sizeOf cmds) cmds le_rfl 0
  refine ⟨by simp, ?_, ?_, ?_⟩
  · intro j x hj hx
    have hjlen : j < (compileAtCmds 0 cmds ++ [CauchemarVMInstruction.ret]).length := by
      obtain ⟨h, -⟩ := List.getElem?_eq_some.mp hj
      exact h
    by_cases hlast : j < (compileAtCmds 0 cmds).length
    · simp at hjlen ⊢
      omega
    · exfalso
      have hj' : j = (compileAtCmds 0 cmds).length := by
        simp at hjlen
        omega
      rw [hj', List.getElem?_concat_length] at hj
      cases hj
      exact hx rfl
  · intro j t hj
    have hx := List.getElem?_mem hj
    rw [List.mem_append] at hx
    rcases hx with hx | hx
    · have := (hmem _ hx).2
      simp only [instrTargOk] at this
      simp
      omega
    · simp at hx
  · intro j t hj
    have hx := List.getElem?_mem hj
    rw [List.mem_append] at hx
    rcases hx with hx | hx
    · have := (hmem _ hx).2
      simp only [instrTargOk] at this
      simp
      omega
    · simp at hx

/-- Every user routine of the compiled table has well-formed code. -/
theorem compileProgram_wf (p : Program) (nm : String)
    (code : List CauchemarVMInstruction)
    (h : compileProgram p nm = some (.user code)) : WfCode code := by
  rw [compileProgram_lookup] at h
  cases hn : nativeOf nm with
  | some op => rw [hn] at h; cases h
  | none =>
      rw [hn] at h
      cases hp : p nm with
      | none => rw [hp] at h; cases h
      | some cmds =>
          rw [hp] at h
          simp at h
          rw [← h]
          exact compiledRoutine_wf cmds

/-- The frame-index invariant: every frame on the stack that names a user
routine indexes within that routine's instruction list. -/
def FramesOk (tbl : RoutineTable) (frames : List (String × Nat)) : Prop :=
  ∀ nm j, (nm, j) ∈ frames → ∀ code, tbl nm = some (.user code) →
    j < code.length

theorem framesOk_cons {tbl : RoutineTable} {rest : List (String × Nat)}
    (h : FramesOk tbl rest) {name : String} {j : Nat}
    (hj : ∀ code, tbl name = some (.user code) → j < code.length) :
    FramesOk tbl ((name, j) :: rest) := by
  intro nm k hk code hc
  rcases List.mem_cons.mp hk with heq | hmem
  · cases heq
    exact hj code hc
  · exact h nm k hmem code hc

/-- One step preserves the frame-index invariant and never faults with an
out-of-bounds instruction fetch. -/
theorem step_inv (tbl : RoutineTable)
    (hwf : ∀ nm code, tbl nm = some (.user code) → WfCode code)
    (s : VMState) (hin : FramesOk tbl s.ip) :
    (∀ s', step tbl s = .cont s' → FramesOk tbl s'.ip) ∧
    (∀ s'', step tbl s ≠ .fault .frameIndexOOB s'') := by
  obtain ⟨frames, stk, out⟩ := s
  cases frames with
  | nil =>
      constructor
      · intro s' h
        simp [step] at h
      · intro s'' h
        simp [step] at h
  | cons pr rest =>
      obtain ⟨name, ip⟩ := pr
      have hrest : FramesOk tbl rest := fun nm j hj code hc =>
        hin nm j (List.mem_cons_of_mem _ hj) code hc
      cases hTn : tbl name with
      | none =>
          constructor
          · intro s' h
            simp [step, hTn] at h
          · intro s'' h
            simp [step, hTn] at h
      | some r =>
          cases r with
          | native op =>
              cases hex : execNative op stk with
              | ok pr2 =>
                  obtain ⟨stk2, ls⟩ := pr2
                  constructor
                  · intro s' h
                    simp only [step, hTn, hex] at h
                    cases h
                    exact hrest
                  · intro s'' h
                    simp [step, hTn, hex] at h
              | error e =>
                  constructor
                  · intro s' h
                    simp only [step, hTn, hex] at h
                    cases h
                  · intro s'' h
                    simp only [step, hTn, hex] at h
                    cases h
                    exact execNative_no_oob op stk _ hex rfl
          | user code =>
              have hcwf := hwf name code hTn
              have hip : ip < code.length :=
                hin name ip (List.mem_cons_self _ _) code hTn
              have hadv : ∀ x, code[ip]? = some x →
                  x ≠ CauchemarVMInstruction.ret →
                  FramesOk tbl ((name, ip + 1) :: rest) := by
                intro x hx hxr
                refine framesOk_cons hrest fun code' hc' => ?_
                rw [hTn] at hc'
                cases hc'
                exact hcwf.2.1 ip x hx hxr
              rcases hfetch : code[ip]? with - | xinstr
              · exfalso
                rw [List.getElem?_eq_none_iff] at hfetch
                omega
              cases xinstr with
              | push v =>
                  constructor
                  · intro s' h
                    simp only [step, hTn, hfetch] at h
                    cases h
                    exact hadv _ hfetch (by simp)
                  · intro s'' h
                    simp [step, hTn, hfetch] at h
              | add =>
                  cases hb : binop addFn stk with
                  | ok stk2 =>
                      constructor
                      · intro s' h
                        simp only [step, hTn, hfetch, hb] at h
                        cases h
                        exact hadv _ hfetch (by simp)
                      · intro s'' h
                        simp [step, hTn, hfetch, hb] at h
                  | error e =>
                      constructor
                      · intro s' h
                        simp only [step, hTn, hfetch, hb] at h
                        cases h
                      · intro s'' h
                        simp only [step, hTn, hfetch, hb] at h
                        cases h
                        exact binop_no_oob addFn stk _ addFn_no_oob hb rfl
              | sub =>
                  cases hb : binop subFn stk with
                  | ok stk2 =>
                      constructor
                      · intro s' h
                        simp only [step, hTn, hfetch, hb] at h
                        cases h
                        exact hadv _ hfetch (by simp)
                      · intro s'' h
                        simp [step, hTn, hfetch, hb] at h
                  | error e =>
                      constructor
                      · intro s' h
                        simp only [step, hTn, hfetch, hb] at h
                        cases h
                      · intro s'' h
                        simp only [step, hTn, hfetch, hb] at h
                        cases h
                        exact binop_no_oob subFn stk _ subFn_no_oob hb rfl
              | mul =>
                  cases hb : binop mulFn stk with
                  | ok stk2 =>
                      constructor
                      · intro s' h
                        simp only [step, hTn, hfetch, hb] at h
                        cases h
                        exact hadv _ hfetch (by simp)
                      · intro s'' h
                        simp [step, hTn, hfetch, hb] at h
                  | error e =>
                      constructor
                      · intro s' h
                        simp only [step, hTn, hfetch, hb] at h
                        cases h
                      · intro s'' h
                        simp only [step, hTn, hfetch, hb] at h
                        cases h
                        exact binop_no_oob mulFn stk _ mulFn_no_oob hb rfl
              | div =>
                  cases hb : binop divFn stk with
                  | ok stk2 =>
                      constructor
                      · intro s' h
                        simp only [step, hTn, hfetch, hb] at h
                        cases h
                        exact hadv _ hfetch (by simp)
                      · intro s'' h
                        simp [step, hTn, hfetch, hb] at h
                  | error e =>
                      constructor
                      · intro s' h
                        simp only [step, hTn, hfetch, hb] at h
                        cases h
                      · intro s'' h
                        simp only [step, hTn, hfetch, hb] at h
                        cases h
                        exact binop_no_oob divFn stk _ divFn_no_oob hb rfl
              | jump t =>
                  constructor
                  · intro s' h
                    simp only [step, hTn, hfetch] at h
                    cases h
                    refine framesOk_cons hrest fun code' hc' => ?_
                    rw [hTn] at hc'
                    cases hc'
                    exact hcwf.2.2.1 ip t hfetch
                  · intro s'' h
                    simp [step, hTn, hfetch] at h
              | jumpIfFalse t =>
                  rcases stk with - | ⟨v, stk2⟩
                  · constructor
                    · intro s' h
                      simp only [step, hTn, hfetch] at h
                      cases h
                    · intro s'' h
                      simp only [step, hTn, hfetch] at h
                      cases h
                  · cases v with
                    | bool bv =>
                        cases bv with
                        | false =>
                            constructor
                            · intro s' h
                              simp only [step, hTn, hfetch] at h
                              cases h
                              refine framesOk_cons hrest fun code' hc' => ?_
                              rw [hTn] at hc'
                              cases hc'
                              exact hcwf.2.2.2 ip t hfetch
                            · intro s'' h
                              simp [step, hTn, hfetch] at h
                        | true =>
                            constructor
                            · intro s' h
                              simp only [step, hTn, hfetch] at h
                              cases h
                              exact hadv _ hfetch (by simp)
                            · intro s'' h
                              simp [step, hTn, hfetch] at h
                    | number nv =>
                        constructor
                        · intro s' h
                          simp only [step, hTn, hfetch] at h
                          cases h
                        · intro s'' h
                          simp only [step, hTn, hfetch] at h
                          cases h
                    | string sv =>
                        constructor
                        · intro s' h
                          simp only [step, hTn, hfetch] at h
                          cases h
                        · intro s'' h
                          simp only [step, hTn, hfetch] at h
                          cases h
              | call callee =>
                  constructor
                  · intro s' h
                    simp only [step, hTn, hfetch] at h
                    cases h
                    refine framesOk_cons ?_ fun code' hc' => (hwf callee code' hc').1
                    exact framesOk_cons hrest fun code' hc' => by
                      rw [hTn] at hc'
                      cases hc'
                      exact hcwf.2.1 ip _ hfetch (by simp)
                  · intro s'' h
                    simp [step, hTn, hfetch] at h
              | ret =>
                  cases rest with
                  | nil =>
                      constructor
                      · intro s' h
                        simp only [step, hTn, hfetch] at h
                        cases h
                      · intro s'' h
                        simp [step, hTn, hfetch] at h
                  | cons q rest' =>
                      constructor
                      · intro s' h
                        simp only [step, hTn, hfetch] at h
                        cases h
                        exact hrest
                      · intro s'' h
                        simp [step, hTn, hfetch] at h
              | nop =>
                  constructor
                  · intro s' h
                    simp only [step, hTn, hfetch] at h
                    cases h
                    exact hadv _ hfetch (by simp)
                  · intro s'' h
                    simp [step, hTn, hfetch] at h

/-- A run result that is not an out-of-bounds instruction fetch fault. -/
def noFrameOOB : RunRes → Prop
  | .fault .frameIndexOOB _ => False
  | _ => True

theorem run_no_oob_aux (tbl : RoutineTable)
    (hwf : ∀ nm code, tbl nm = some (.user code) → WfCode code) :
    ∀ (n : Nat) (s : VMState), FramesOk tbl s.ip →
      noFrameOOB (run_vm tbl n s) := by
  intro n
  induction n with
  | zero =>
      intro s _
      simp [run_vm, noFrameOOB]
  | succ n ih =>
      intro s hin
      rw [run_vm]
      cases hs : step tbl s with
      | cont s' => exact ih s' ((step_inv tbl hwf s hin).1 s' hs)
      | halt s' => simp [noFrameOOB]
      | fault e s' =>
          cases e <;> simp [noFrameOOB]
          exact (step_inv tbl hwf s hin).2 s' hs

/-- C7.  The instruction fetch of `run_vm` never goes out of bounds when
running a compiled program from the initial `PROGRAM` frame: in every
reachable state a User frame's index is valid at the moment of the fetch.
This rests on every compiled routine's instruction list ending with the
appended `Return` (second conjunct), which removes the frame before the
index can run past the end. -/
theorem vm_fetch_in_bounds :
    (∀ (p : Program) (n : Nat),
      noFrameOOB (run_vm (compileProgram p) n ⟨[("PROGRAM", 0)], [], []⟩))
    ∧ (∀ cmds : List CauchemarAST,
      (compiledRoutine cmds).getLast? = some CauchemarVMInstruction.ret) := by
  constructor
  · intro p n
    refine run_no_oob_aux (compileProgram p) (compileProgram_wf p) n _ ?_
    intro nm j hj code hc
    simp only [List.mem_singleton, Prod.mk.injEq] at hj
    obtain ⟨h1, h2⟩ := hj
    subst h1
    subst h2
    exact (compileProgram_wf p _ _ hc).1
  · intro cmds
    rw [compiledRoutine_eq]
    simp

/-- C3.  For an `If(then, otherwise)` command the compiler emits, in
order: a `JumpIfFalse`, the compiled then-branch, a `Jump`, the compiled
otherwise-branch (possibly empty), and a trailing `Nop`; after
backpatching, the `JumpIfFalse` targets the position immediately after
the `Jump` (the start of the otherwise-branch) and the `Jump` targets
the `Nop` position (the end of the construct). -/
theorem if_compilation (acc : List CauchemarVMInstruction)
    (t e cs : List CauchemarAST) :
    compile_routine acc (CauchemarAST.if_ t e :: cs) =
      compile_routine
        (acc ++
          CauchemarVMInstruction.jumpIfFalse
              (acc.length + 1 + (compileAtCmds (acc.length + 1) t).length + 1) ::
            (compileAtCmds (acc.length + 1) t ++
              CauchemarVMInstruction.jump
                  (acc.length + 1 + (compileAtCmds (acc.length + 1) t).length + 1 +
                    (compileAtCmds
                      (acc.length + 1 + (compileAtCmds (acc.length + 1) t).length + 1)
                      e).length) ::
                (compileAtCmds
                    (acc.length + 1 + (compileAtCmds (acc.length + 1) t).length + 1)
                    e ++ [CauchemarVMInstruction.nop]))) cs := by
  rw [compile_routine_eq_append, compile_routine_eq_append]
  simp only [compileAtCmds, List.append_assoc, List.cons_append, List.nil_append,
    List.singleton_append, List.length_append, List.length_cons, List.length_nil,
    Nat.add_zero, Nat.zero_add]
  repeat' first
    | rfl
    | omega
    | congr 1

/-- C4.  For a `While(body)` command the compiler records the loop start,
emits the compiled body, then a `JumpIfFalse` patched to the trailing
`Nop`, then an unconditional `Jump` back to the loop start, then the
`Nop` (first conjunct).  Consequently, when the body's own leading
condition computation leaves `FALSE` on top of the stack on the very
first evaluation, the VM executes the body exactly once and exits past
the `Nop`, running the rest of the loop zero additional times (second
conjunct). -/
theorem while_compilation :
    (∀ (acc : List CauchemarVMInstruction) (b cs : List CauchemarAST),
      compile_routine acc (CauchemarAST.while_ b :: cs) =
        compile_routine
          (acc ++ (compileAtCmds acc.length b ++
            [CauchemarVMInstruction.jumpIfFalse
              (acc.length + (compileAtCmds acc.length b).length + 2),
             CauchemarVMInstruction.jump acc.length,
             CauchemarVMInstruction.nop])) cs)
    ∧ (∀ (p : Program) (f : Nat) (b : List CauchemarAST) (name : String)
        (code : List CauchemarVMInstruction) (i : Nat)
        (rest : List (String × Nat)) (st st2 : InterpSt)
        (s' : List CauchemarVMValue),
        compileProgram p name = some (.user code) →
        FragAt code i (compileAtCmds i [CauchemarAST.while_ b]) →
        interpCmds p f b st = .ok st2 →
        st2.stack = CauchemarVMValue.bool false :: s' →
        Reach (compileProgram p) ⟨(name, i) :: rest, st.stack, st.output⟩
          ⟨(name, i + (compileAtCmds i [CauchemarAST.while_ b]).length) :: rest,
            s', st2.output⟩) := by
  constructor
  · intro acc b cs
    rw [compile_routine_eq_append, compile_routine_eq_append]
    simp only [compileAtCmds, List.append_assoc, List.cons_append, List.nil_append,
      List.singleton_append, List.length_append, List.length_cons, List.length_nil,
      Nat.add_zero, Nat.zero_add]
    rfl
  · intro p f b name code i rest st st2 s' hT hF hok hstk
    simp only [compileAtCmds] at hF
    obtain ⟨hFB, hF2⟩ := fragAt_append hF
    obtain ⟨gJF, hF3⟩ := fragAt_cons hF2
    obtain ⟨gJ, hF4⟩ := fragAt_cons hF3
    obtain ⟨gN, hF5⟩ := fragAt_cons hF4
    rw [show i + (compileAtCmds i b).length + 1 + 1 =
      i + (compileAtCmds i b).length + 2 from by omega] at gN
    have hfr : i + (compileAtCmds i [CauchemarAST.while_ b]).length =
        i + (compileAtCmds i b).length + 3 := by
      simp only [compileAtCmds, List.length_cons, List.length_append,
        List.length_nil]
      omega
    rw [hfr]
    have hreachB := (sim_main p f b st name code i rest hT hFB).1 st2 hok
    have hstepJF : step (compileProgram p)
        ⟨(name, i + (compileAtCmds i b).length) :: rest, st2.stack, st2.output⟩
        = .cont ⟨(name, i + (compileAtCmds i b).length + 2) :: rest, s',
            st2.output⟩ := by
      simp [step, hT, gJF, hstk]
    have hstepN : step (compileProgram p)
        ⟨(name, i + (compileAtCmds i b).length + 2) :: rest, s', st2.output⟩
        = .cont ⟨(name, i + (compileAtCmds i b).length + 3) :: rest, s',
            st2.output⟩ := by
      simp [step, hT, gN]
    exact reach_tail (reach_tail hreachB hstepJF) hstepN

/-- C5.  Executing an `Add`, `Sub`, `Mul` or `Div` instruction pops the
right-hand operand first (stack top) and the left-hand operand second and
pushes `Number (left OP right)`; a non-`Number` in either popped position
aborts with a `TypeMismatch` fault; `Div` truncates toward zero
(`Int.tdiv`, last conjunct) and a zero right-hand operand aborts with a
`DivisionByZero` fault. -/
theorem arith_dispatch (tbl : RoutineTable) (name : String)
    (code : List CauchemarVMInstruction) (i : Nat)
    (rest : List (String × Nat)) (out : List String)
    (hT : tbl name = some (.user code)) :
    (∀ (a b : Int) (s : List CauchemarVMValue),
      code[i]? = some .add →
      step tbl ⟨(name, i) :: rest, .number b :: .number a :: s, out⟩ =
        .cont ⟨(name, i + 1) :: rest, .number (a + b) :: s, out⟩)
    ∧ (∀ (a b : Int) (s : List CauchemarVMValue),
      code[i]? = some .sub →
      step tbl ⟨(name, i) :: rest, .number b :: .number a :: s, out⟩ =
        .cont ⟨(name, i + 1) :: rest, .number (a - b) :: s, out⟩)
    ∧ (∀ (a b : Int) (s : List CauchemarVMValue),
      code[i]? = some .mul →
      step tbl ⟨(name, i) :: rest, .number b :: .number a :: s, out⟩ =
        .cont ⟨(name, i + 1) :: rest, .number (a * b) :: s, out⟩)
    ∧ (∀ (a b : Int) (s : List CauchemarVMValue),
      code[i]? = some .div → b ≠ 0 →
      step tbl ⟨(name, i) :: rest, .number b :: .number a :: s, out⟩ =
        .cont ⟨(name, i + 1) :: rest, .number (Int.tdiv a b) :: s, out⟩)
    ∧ (∀ (a : Int) (s : List CauchemarVMValue),
      code[i]? = some .div →
      step tbl ⟨(name, i) :: rest, .number 0 :: .number a :: s, out⟩ =
        .fault .divisionByZero
          ⟨(name, i) :: rest, .number 0 :: .number a :: s, out⟩)
    ∧ (∀ (x : CauchemarVMInstruction) (v : CauchemarVMValue)
        (s : List CauchemarVMValue),
      x = .add ∨ x = .sub ∨ x = .mul ∨ x = .div →
      code[i]? = some x → (∀ m : Int, v ≠ .number m) →
      step tbl ⟨(name, i) :: rest, v :: s, out⟩ =
        .fault .typeMismatch ⟨(name, i) :: rest, v :: s, out⟩)
    ∧ (∀ (x : CauchemarVMInstruction) (v : CauchemarVMValue) (b : Int)
        (s : List CauchemarVMValue),
      x = .add ∨ x = .sub ∨ x = .mul ∨ x = .div →
      code[i]? = some x → (∀ m : Int, v ≠ .number m) →
      step tbl ⟨(name, i) :: rest, .number b :: v :: s, out⟩ =
        .fault .typeMismatch ⟨(name, i) :: rest, .number b :: v :: s, out⟩)
    ∧ (∀ a b : Int, b ≠ 0 → (Int.tdiv a b).natAbs = a.natAbs / b.natAbs) := by
  refine ⟨?_, ?_, ?_, ?_, ?_, ?_, ?_, ?_⟩
  · intro a b s hi
    simp [step, hT, hi, binop, addFn]
  · intro a b s hi
    simp [step, hT, hi, binop, subFn]
  · intro a b s hi
    simp [step, hT, hi, binop, mulFn]
  · intro a b s hi hb
    simp [step, hT, hi, binop, divFn, hb]
  · intro a s hi
    simp [step, hT, hi, binop, divFn]
  · intro x v s hx hi hv
    cases v with
    | number m => exact absurd rfl (hv m)
    | bool bv =>
        rcases hx with rfl | rfl | rfl | rfl <;> simp [step, hT, hi, binop]
    | string sv =>
        rcases hx with rfl | rfl | rfl | rfl <;> simp [step, hT, hi, binop]
  · intro x v b s hx hi hv
    cases v with
    | number m => exact absurd rfl (hv m)
    | bool bv =>
        rcases hx with rfl | rfl | rfl | rfl <;> simp [step, hT, hi, binop]
    | string sv =>
        rcases hx with rfl | rfl | rfl | rfl <;> simp [step, hT, hi, binop]
  · intro a b _
    exact Int.natAbs_tdiv a b

/-- Witness for C5: on a one-instruction routine, `7 (-2) /` yields the
toward-zero quotient `-3`. -/
theorem arith_dispatch_witness :
    step (fun nm => if nm = "R" then
        some (CauchemarVMRoutine.user [CauchemarVMInstruction.div]) else none)
      ⟨[("R", 0)], [.number (-2), .number 7], []⟩ =
      .cont ⟨[("R", 1)], [.number (-3)], []⟩ := by
  have h := (arith_dispatch
    (fun nm => if nm = "R" then
      some (CauchemarVMRoutine.user [CauchemarVMInstruction.div]) else none)
    "R" [CauchemarVMInstruction.div] 0 [] [] (by simp)).2.2.2.1 7 (-2) []
    rfl (by decide)
  simpa using h

/-- C6.  On each loop iteration the popped frame is pushed back
pre-advanced as `(name, index+1)` before dispatch (third conjunct: an
ordinary user instruction leaves exactly the pre-advanced frame).  When
the routine resolves to a native, its effect runs against the value stack
and the pre-advanced frame is immediately popped again, so a native never
remains on the frame stack and control resumes at the instruction after
the call (first conjunct: the frame stack after the step is exactly
`rest`); a native's fault aborts the run (second conjunct). -/
theorem native_dispatch (tbl : RoutineTable) (name : String) (op : NativeOp)
    (i : Nat) (rest : List (String × Nat)) (stk : List CauchemarVMValue)
    (out : List String) (hT : tbl name = some (.native op)) :
    (∀ (stk' : List CauchemarVMValue) (ls : List String),
      execNative op stk = .ok (stk', ls) →
      step tbl ⟨(name, i) :: rest, stk, out⟩ = .cont ⟨rest, stk', out ++ ls⟩)
    ∧ (∀ e : Fault, execNative op stk = .error e →
      step tbl ⟨(name, i) :: rest, stk, out⟩ =
        .fault e ⟨(name, i) :: rest, stk, out⟩)
    ∧ (∀ (tbl' : RoutineTable) (nm : String)
        (code : List CauchemarVMInstruction) (j : Nat)
        (rest' : List (String × Nat)) (stk' : List CauchemarVMValue)
        (out' : List String),
      tbl' nm = some (.user code) → code[j]? = some .nop →
      step tbl' ⟨(nm, j) :: rest', stk', out'⟩ =
        .cont ⟨(nm, j + 1) :: rest', stk', out'⟩) := by
  refine ⟨?_, ?_, ?_⟩
  · intro stk' ls hex
    simp [step, hT, hex]
  · intro e hex
    simp [step, hT, hex]
  · intro tbl' nm code j rest' stk' out' hT' hj
    simp [step, hT', hj]

/-- Witness for C6: `PRINT` called from `PROGRAM` prints `1`, vanishes
from the frame stack, and leaves the caller's pre-advanced frame on top. -/
theorem native_dispatch_witness :
    step (fun nm => if nm = "PRINT" then
        some (CauchemarVMRoutine.native NativeOp.print) else none)
      ⟨[("PRINT", 0), ("PROGRAM", 5)], [.number 1], []⟩ =
      .cont ⟨[("PROGRAM", 5)], [], ["1"]⟩ := by
  have h := (native_dispatch
    (fun nm => if nm = "PRINT" then
      some (CauchemarVMRoutine.native NativeOp.print) else none)
    "PRINT" NativeOp.print 0 [("PROGRAM", 5)] [.number 1] []
    (by simp)).1 [] ["1"] rfl
  simpa using h

/-- The entry check of `main`: a program without a routine named exactly
`PROGRAM` panics with the missing-entry fault before
`compile_cauchemar_program` is called and before any VM execution;
otherwise compilation proceeds. -/
def main_check (p : Program) : Except Fault (RoutineTable × VMState) :=
  match p "PROGRAM" with
  | none => .error .missingEntryRoutine
  | some _ => .ok (compile_cauchemar_program p)

/-- C8.  Loading a program that does not define `PROGRAM` aborts with the
missing-entry fault before compilation and before any VM execution; when
`PROGRAM` exists, execution starts from the single initial frame
`(PROGRAM, 0)` with an empty value stack and no output. -/
theorem missing_entry_check :
    (∀ p : Program, p "PROGRAM" = none →
      main_check p = .error .missingEntryRoutine)
    ∧ (∀ (p : Program) (entry : List CauchemarAST),
      p "PROGRAM" = some entry →
      main_check p = .ok (compileProgram p, ⟨[("PROGRAM", 0)], [], []⟩)) := by
  constructor
  · intro p h
    simp [main_check, h]
  · intro p entry h
    simp [main_check, h, compile_cauchemar_program]

/-- Witness for C8: the empty program is rejected; the one-routine
program starts from the frame `(PROGRAM, 0)`. -/
theorem missing_entry_check_witness :
    main_check (fun _ => none) = .error .missingEntryRoutine ∧
    main_check (fun nm => if nm = "PROGRAM" then some [] else none) =
      .ok (compileProgram (fun nm => if nm = "PROGRAM" then some [] else none),
        ⟨[("PROGRAM", 0)], [], []⟩) :=
  ⟨missing_entry_check.1 (fun _ => none) rfl,
   missing_entry_check.2 (fun nm => if nm = "PROGRAM" then some [] else none)
     [] (by simp)⟩

/-- C9.  The finished routine table holds every compiled user routine
(with its trailing `Return`) under its name, and the fixed native set is
inserted afterwards, so under last-write-wins a native name always
resolves to the native: a user routine spelled like a native
(e.g. `PRINT`, third conjunct) is replaced before execution starts. -/
theorem routine_table_lookup :
    (∀ (p : Program) (nm : String) (op : NativeOp), nativeOf nm = some op →
      compileProgram p nm = some (.native op))
    ∧ (∀ (p : Program) (nm : String), nativeOf nm = none →
      compileProgram p nm = (p nm).map fun cmds =>
        CauchemarVMRoutine.user (compiledRoutine cmds))
    ∧ nativeOf "PRINT" = some NativeOp.print := by
  refine ⟨?_, ?_, ?_⟩
  · intro p nm op h
    exact compileProgram_native p nm op h
  · intro p nm h
    exact compileProgram_user p nm h
  · decide

/-- Witness for C9: a program that defines its own `PRINT` still sees the
native `PRINT` in the compiled table. -/
theorem routine_table_lookup_witness :
    compileProgram (fun nm => if nm = "PRINT" then
        some [CauchemarAST.number 1] else none) "PRINT" =
      some (CauchemarVMRoutine.native NativeOp.print) :=
  routine_table_lookup.1
    (fun nm => if nm = "PRINT" then some [CauchemarAST.number 1] else none)
    "PRINT" NativeOp.print (by decide)

/-- C10.  `Jump` and `JumpIfFalse` replace only the index component of the
top frame and always reuse the current routine's name, so control never
transfers into a different routine's instruction list except through
`Call` and `Return`. -/
theorem jump_same_routine (tbl : RoutineTable) (name : String)
    (code : List CauchemarVMInstruction) (i : Nat)
    (rest : List (String × Nat)) (stk : List CauchemarVMValue)
    (out : List String) (hT : tbl name = some (.user code)) :
    (∀ t : Nat, code[i]? = some (.jump t) →
      step tbl ⟨(name, i) :: rest, stk, out⟩ =
        .cont ⟨(name, t) :: rest, stk, out⟩)
    ∧ (∀ (t : Nat) (s : List CauchemarVMValue),
      code[i]? = some (.jumpIfFalse t) → stk = .bool false :: s →
      step tbl ⟨(name, i) :: rest, stk, out⟩ =
        .cont ⟨(name, t) :: rest, s, out⟩)
    ∧ (∀ (t : Nat) (s : List CauchemarVMValue),
      code[i]? = some (.jumpIfFalse t) → stk = .bool true :: s →
      step tbl ⟨(name, i) :: rest, stk, out⟩ =
        .cont ⟨(name, i + 1) :: rest, s, out⟩) := by
  refine ⟨?_, ?_, ?_⟩
  · intro t hi
    simp [step, hT, hi]
  · intro t s hi hs
    simp [step, hT, hi, hs]
  · intro t s hi hs
    simp [step, hT, hi, hs]

/-- Witness for C10: a `Jump 0` in routine `R` moves `R`'s own frame to
index 0. -/
theorem jump_same_routine_witness :
    step (fun nm => if nm = "R" then
        some (CauchemarVMRoutine.user [CauchemarVMInstruction.jump 0]) else none)
      ⟨[("R", 0)], [], []⟩ = .cont ⟨[("R", 0)], [], []⟩ :=
  (jump_same_routine
    (fun nm => if nm = "R" then
      some (CauchemarVMRoutine.user [CauchemarVMInstruction.jump 0]) else none)
    "R" [CauchemarVMInstruction.jump 0] 0 [] [] [] (by simp)).1 0 rfl

/-- C2 (amended).  Every native except `DROP` aborts the run when invoked
with fewer operands than it pops: with `StackUnderflow` when each pop that
finds a value sees the expected variant — in particular always for
`PRINT`, `DUP`, `SWAP`, `ROT`, `OVER`, `EQUALS` (second conjunct) — but
with `TypeMismatch` when a wrongly-typed operand is popped before the
shortfall is reached.  `DROP` never faults: on any stack, an empty one
included, it discards at most one value and succeeds (third conjunct). -/
theorem native_underflow :
    (∀ (op : NativeOp) (stk : List CauchemarVMValue), op ≠ .drop →
      stk.length < natArity op →
      execNative op stk = .error .stackUnderflow ∨
        execNative op stk = .error .typeMismatch)
    ∧ (∀ (op : NativeOp) (stk : List CauchemarVMValue),
      op = .print ∨ op = .dup ∨ op = .swap ∨ op = .rot ∨ op = .over ∨
        op = .equals →
      stk.length < natArity op →
      execNative op stk = .error .stackUnderflow)
    ∧ (∀ stk : List CauchemarVMValue,
      execNative .drop stk = .ok (stk.tail, [])) := by
  refine ⟨?_, ?_, ?_⟩
  · intro op stk hop hlen
    cases op <;>
      rcases stk with _ | ⟨n1 | b1 | s1, _ | ⟨n2 | b2 | s2, _ | ⟨n3 | b3 | s3, r⟩⟩⟩ <;>
      simp_all [execNative, execNative.numberComparison, natArity] <;>
      omega
  · intro op stk hop hlen
    rcases hop with rfl | rfl | rfl | rfl | rfl | rfl <;>
      rcases stk with _ | ⟨v1, _ | ⟨v2, _ | ⟨v3, r⟩⟩⟩ <;>
      simp_all [execNative, natArity] <;>
      omega
  · intro stk
    cases stk <;> simp [execNative]

/-- Witness for C2: `DUP` on the empty stack raises `StackUnderflow`. -/
theorem native_underflow_witness :
    execNative NativeOp.dup [] = .error .stackUnderflow :=
  native_underflow.2.1 NativeOp.dup [] (Or.inr (Or.inl rfl)) (by decide)

/-- Counterexample for C2 as stated: `DROP` on the empty stack has fewer
operands than it pops yet succeeds without any fault, and `OR` on a
one-element stack holding a `Number` aborts with `TypeMismatch`, not
`StackUnderflow`. -/
theorem native_underflow_counterexample :
    execNative NativeOp.drop [] = .ok ([], []) ∧
    ([] : List CauchemarVMValue).length < natArity NativeOp.drop ∧
    execNative NativeOp.orOp [CauchemarVMValue.number 3] =
      .error .typeMismatch ∧
    ([CauchemarVMValue.number 3]).length < natArity NativeOp.orOp := by
  refine ⟨rfl, by decide, rfl, by decide⟩
